import Mathlib

/-!
Verification of the sequence-level and structural three-way merge engine of
`json-diff3` (source: `src/node-diff3.ts`, tests: `src/json-diff3.test.ts`).

The TypeScript source is shallowly embedded: JS arrays become `List`,
JS numbers used as indices/lengths become `Int` (so that questions about
negative locations or lengths are statable), `undefined`-able fields become
`Option Int`, and the imperative loops of `diff3MergeIndices` become
recursive functions over the sorted hunk list.

The external pairwise diff primitive (`fast-myers-diff`'s `diff_core` and
`fast-diff`) is not part of this repository; per the spec it is a black box
satisfying a narrow contract.  It is modelled below (`diff_core`), and the
theorems about the grouping/merging logic are additionally proved for
arbitrary hunk lists satisfying the spec's diff contract.
-/

namespace JsonDiff3

/-- `Range` (source `node-diff3.ts` lines 11-14): a half-open span.
Fields are `Int` to mirror JS number arithmetic, where subtraction can
in principle go negative. -/
structure Range where
  location : Int
  length : Int
deriving DecidableEq, Repr

/-- Source lines 16-18. -/
def makeRange (location length : Int) : Range := ⟨location, length⟩

/-- Source lines 20-22. -/
def upperBound (r : Range) : Int := r.location + r.length

/-- One changed region reported by `diffIndices` (source lines 62-65):
`a` is the span in the first sequence, `b` in the second. -/
structure DiffIndicesResult where
  a : Range
  b : Range
deriving DecidableEq, Repr

/-!
### SequenceDiffer: `diffIndicesArray` (source lines 116-168)

The common-prefix loop (lines 134-140) and common-suffix loop (lines
147-153) are embedded as `commonPrefixLen` (the suffix loop is the prefix
loop on the reversed remainders).  The `a === b` reference-equality fast
path (line 121) is omitted: reference equality is not observable in a
value semantics, and when `a` and `b` are the same array every aligned
element pair is reference-equal, so with the library's default element
predicate the prefix scan returns the same empty result.
-/

/-- Length of the longest common prefix of two lists under a Boolean
equality predicate: the loop of source lines 134-140. -/
def commonPrefixLen (eq : α → α → Bool) : List α → List α → Nat
  | x :: xs, y :: ys => if eq x y then commonPrefixLen eq xs ys + 1 else 0
  | _, _ => 0

/-- Modelled from the spec: the external pairwise diff primitive
(`fast-myers-diff`'s `diff_core`, invoked at source lines 155-161) is out
of scope for this repository and is specified only by its interface
contract ("given two sequences and an equality predicate, it yields a
set of non-overlapping equal-range/changed-range hunks").  It is modelled
as a single changed hunk covering the divergent middle windows
`[i, i+n)` / `[j, j+m)`, which satisfies the contract's ordering,
non-overlap, non-emptiness and alignment requirements (not minimality). -/
def diff_core (i n j m : Nat) : List (Nat × Nat × Nat × Nat) :=
  if n = 0 ∧ m = 0 then [] else [(i, i + n, j, j + m)]

/-- Source lines 116-168 (`diffIndicesArray`): eliminate the common
prefix and the common suffix of the remainder, return `[]` when the
prefix consumed both sequences, otherwise hand the middle windows to the
external diff primitive and convert its index quadruples to ranges. -/
def diffIndicesArray (eq : α → α → Bool) (a b : List α) : List DiffIndicesResult :=
  -- eliminate common prefix (lines 131-140)
  let offset := commonPrefixLen eq a b
  if offset = a.length ∧ offset = b.length then
    []
  else
    -- eliminate common suffix (lines 146-153)
    let suffix := commonPrefixLen eq ((a.drop offset).reverse) ((b.drop offset).reverse)
    let aLength := a.length - suffix
    let bLength := b.length - suffix
    (diff_core offset (aLength - offset) offset (bLength - offset)).map
      fun q => ⟨makeRange q.1 ((q.2.1 : Int) - q.1), makeRange q.2.2.1 ((q.2.2.2 : Int) - q.2.2.1)⟩

/-- Source lines 170-178: `diffIndices` with the default element equality
(`===`; on the key strings the merge engine is applied to, JS `===` is
value equality, embedded as decidable structural equality).  The
string-typed dispatch to the external `fast-diff` text differ is out of
scope; sequences are embedded uniformly as lists. -/
def diffIndices [DecidableEq α] (a b : List α) : List DiffIndicesResult :=
  diffIndicesArray (fun x y => decide (x = y)) a b

/-!
### SequenceMerger: `diff3MergeIndices` (source lines 180-330)
-/

/-- Which side of the merge a hunk came from. -/
inductive Side where
  | a
  | b
deriving DecidableEq, Repr

/-- Internal hunk of `diff3MergeIndices` (source lines 199-203). -/
structure Hunk where
  side : Side
  oRange : Range
  sideRange : Range
deriving DecidableEq, Repr

/-- The `Index` tagged union (source lines 24-49).  `okA`'s `aIndex` and
`okB`'s `bIndex` are required in the source types; the remaining index
fields are `number | undefined`, embedded as `Option Int`. -/
inductive Index where
  | conflict (aRange oRange bRange : Range)
  | okA (length : Int) (aIndex : Int) (oIndex : Option Int) (bIndex : Option Int)
  | okB (length : Int) (aIndex : Option Int) (oIndex : Option Int) (bIndex : Int)
deriving DecidableEq, Repr

/-- `copyCommon` (source lines 225-239), as a pure function from the
target offset and the three current offsets to the emitted records and
the updated offsets `(oOffset, aOffset, bOffset)`. -/
def copyCommon (targetOffset oOffset aOffset bOffset : Int) :
    List Index × Int × Int × Int :=
  let delta := targetOffset - oOffset
  if delta > 0 then
    ([.okA delta aOffset (some oOffset) (some bOffset)],
      oOffset + delta, aOffset + delta, bOffset + delta)
  else
    ([], oOffset, aOffset, bOffset)

/-- The group-collection loop of source lines 245-254: starting from the
current `regionRhs`, consume hunks while the next hunk's base start is
`≤ regionRhs` (touching), extending `regionRhs` to the max of the two;
returns the final `regionRhs`, the consumed hunks, and the remainder. -/
def collectGroup (regionRhs : Int) : List Hunk → Int × List Hunk × List Hunk
  | [] => (regionRhs, [], [])
  | h :: rest =>
    if h.oRange.location > regionRhs then
      (regionRhs, [], h :: rest)
    else
      let c := collectGroup (max regionRhs (upperBound h.oRange)) rest
      (c.1, h :: c.2.1, c.2.2)

/-- Fuel-driven helper for `sweepGroups`; the fuel only bounds the
number of groups (each group consumes at least one hunk), so any fuel of
at least the list's length produces the same decomposition. -/
def sweepGroupsFuel : Nat → List Hunk → List (List Hunk)
  | _, [] => []
  | 0, _ :: _ => []
  | n + 1, h :: rest =>
    let c := collectGroup (upperBound h.oRange) rest
    (h :: c.2.1) :: sweepGroupsFuel n c.2.2

/-- Decompose a sorted hunk list into the maximal groups of touching
hunks found by the sweep of source lines 241-254. -/
def sweepGroups (l : List Hunk) : List (List Hunk) := sweepGroupsFuel l.length l

/-- The `regionRhs` a group ends with: the running max of base upper
bounds, seeded with the first hunk's (source lines 245, 252). -/
def groupSpanEnd (h : Hunk) (t : List Hunk) : Int :=
  t.foldl (fun r x => max r (upperBound x.oRange)) (upperBound h.oRange)

/-- The per-side extent accumulator of the conflict branch (source lines
294-310): `[minSide, maxSide, minO, maxO]`. -/
structure Region4 where
  r0 : Int
  r1 : Int
  r2 : Int
  r3 : Int
deriving DecidableEq, Repr

/-- One step of the extent loop (source lines 298-310). -/
def regionsStep (r : Region4 × Region4) (h : Hunk) : Region4 × Region4 :=
  let oLhs := h.oRange.location
  let oRhs := upperBound h.oRange
  let abLhs := h.sideRange.location
  let abRhs := upperBound h.sideRange
  match h.side with
  | .a => (⟨min abLhs r.1.r0, max abRhs r.1.r1, min oLhs r.1.r2, max oRhs r.1.r3⟩, r.2)
  | .b => (r.1, ⟨min abLhs r.2.r0, max abRhs r.2.r1, min oLhs r.2.r2, max oRhs r.2.r3⟩)

/-- The body of the sweep loop (source lines 256-325) applied to the
already-collected groups, carrying `(oOffset, aOffset, bOffset)`; the
final `copyCommon(o.length)` of line 328 is the `[]` case.  Groups are
non-empty by construction; an empty group is skipped. -/
def processGroups (oLen aLen bLen : Int) :
    Int → Int → Int → List (List Hunk) → List Index
  | oOffset, aOffset, bOffset, [] => (copyCommon oLen oOffset aOffset bOffset).1
  | oOffset, aOffset, bOffset, [] :: gs => processGroups oLen aLen bLen oOffset aOffset bOffset gs
  | oOffset, aOffset, bOffset, (hunk :: tail) :: gs =>
    let regionLhs := hunk.oRange.location
    let regionRhs := groupSpanEnd hunk tail
    let c := copyCommon regionLhs oOffset aOffset bOffset
    let common := c.1
    let oOff1 := c.2.1
    let aOff1 := c.2.2.1
    let bOff1 := c.2.2.2
    if tail.isEmpty then
      -- single-hunk group: no conflict (source lines 257-286)
      let recs : List Index :=
        if hunk.sideRange.length > 0 then
          match hunk.side with
          | .a => [.okA hunk.sideRange.length hunk.sideRange.location none none]
          | .b => [.okB hunk.sideRange.length none none hunk.sideRange.location]
        else []
      let delta := regionRhs - oOff1
      let aOff2 := if hunk.side = .a then upperBound hunk.sideRange else aOff1 + delta
      let bOff2 := if hunk.side = .b then upperBound hunk.sideRange else bOff1 + delta
      common ++ recs ++ processGroups oLen aLen bLen regionRhs aOff2 bOff2 gs
    else
      -- a proper conflict (source lines 287-325)
      let r := (hunk :: tail).foldl regionsStep
        (⟨aLen, -1, oLen, -1⟩, ⟨bLen, -1, oLen, -1⟩)
      let aLhs := r.1.r0 + (regionLhs - r.1.r2)
      let aRhs := r.1.r1 + (regionRhs - r.1.r3)
      let bLhs := r.2.r0 + (regionLhs - r.2.r2)
      let bRhs := r.2.r1 + (regionRhs - r.2.r3)
      common ++
        [.conflict (makeRange aLhs (aRhs - aLhs)) (makeRange regionLhs (regionRhs - regionLhs))
          (makeRange bLhs (bRhs - bLhs))] ++
        processGroups oLen aLen bLen regionRhs aRhs bRhs gs

/-- Tag the hunks of the two diffs with their side (source lines 205-218:
for `diffIndices(o, x)` the first range is the base range, the second the
side range) and sort them by base-range start (line 219). -/
def sortedHunks (m1 m2 : List DiffIndicesResult) : List Hunk :=
  ((m1.map fun h => Hunk.mk .a h.a h.b) ++ (m2.map fun h => Hunk.mk .b h.a h.b)).insertionSort
    (fun x y => x.oRange.location ≤ y.oRange.location)

/-- `diff3MergeIndices` given the two diffs (source lines 196-330 after
the two `diffIndices` calls). -/
def mergeIndicesFromDiffs (oLen aLen bLen : Int) (m1 m2 : List DiffIndicesResult) :
    List Index :=
  processGroups oLen aLen bLen 0 0 0 (sweepGroups (sortedHunks m1 m2))

/-- `diff3MergeIndices` (source lines 191-330). -/
def diff3MergeIndices [DecidableEq α] (o a b : List α) : List Index :=
  mergeIndicesFromDiffs o.length a.length b.length (diffIndices o a) (diffIndices o b)

/-!
### StructuralMerger: `diff3`

The structural layer (`json-diff3.ts`) is part of this repository but not
in the available sources — only its test file is.  It is modelled from the
spec (sections 3, 4.3, 4.4, 6, 7), faithful to the spec's words, and
validated against the behaviours pinned by `json-diff3.test.ts`.
-/

/-- Modelled from the spec (§3 Data Model): the tree-value union
`Null | Bool | Number | String | Array<Value> | Object<Mapping<string,Value>>`.
Numbers are embedded as `Int` (their representation is irrelevant to the
claims); objects keep their fields as an ordered association list, since
the spec says objects preserve insertion order for output. -/
inductive JSON where
  | null
  | bool (b : Bool)
  | num (n : Int)
  | str (s : String)
  | arr (items : List JSON)
  | obj (fields : List (String × JSON))
deriving Repr

mutual

/-- Deep structural equality of tree values (spec §4.4: "equality = deep
structural equality"). -/
def JSON.beq : JSON → JSON → Bool
  | .null, .null => true
  | .bool x, .bool y => x == y
  | .num x, .num y => x == y
  | .str x, .str y => x == y
  | .arr xs, .arr ys => JSON.beqList xs ys
  | .obj xs, .obj ys => JSON.beqFields xs ys
  | _, _ => false

/-- Elementwise deep equality of item lists. -/
def JSON.beqList : List JSON → List JSON → Bool
  | [], [] => true
  | x :: xs, y :: ys => JSON.beq x y && JSON.beqList xs ys
  | _, _ => false

/-- Elementwise deep equality of field lists (name and value). -/
def JSON.beqFields : List (String × JSON) → List (String × JSON) → Bool
  | [], [] => true
  | (k1, v1) :: xs, (k2, v2) :: ys => k1 == k2 && JSON.beq v1 v2 && JSON.beqFields xs ys
  | _, _ => false

end

mutual

/-- Size of a tree value, used only to compute a sufficient fuel budget
for the embedded recursion. -/
def JSON.size : JSON → Nat
  | .null => 1
  | .bool _ => 1
  | .num _ => 1
  | .str _ => 1
  | .arr xs => JSON.sizeList xs + 1
  | .obj fs => JSON.sizeFields fs + 1

/-- Summed size of an item list. -/
def JSON.sizeList : List JSON → Nat
  | [] => 0
  | x :: xs => JSON.size x + JSON.sizeList xs + 1

/-- Summed size of a field list. -/
def JSON.sizeFields : List (String × JSON) → Nat
  | [] => 0
  | (_, v) :: fs => JSON.size v + JSON.sizeFields fs + 1

end

/-- Deep equality lifted to possibly-missing values (spec §4.4: "key
absence is modeled as a distinguished missing value participating in the
same three-way comparison"). -/
def obeq : Option JSON → Option JSON → Bool
  | none, none => true
  | some x, some y => JSON.beq x y
  | _, _ => false

/-- The two error kinds of the spec (§7): a located conflict and a
located duplicate array key. -/
inductive MergeError where
  | conflictAt (path : String)
  | duplicateKey (key : String) (path : String)
deriving DecidableEq, Repr

/-- Error message formats (spec §6, "must match exactly"). -/
def MergeError.message : MergeError → String
  | .conflictAt p => "Conflict at " ++ p
  | .duplicateKey k p => "Duplicate array key \x27" ++ k ++ "\x27 at " ++ p

/-- Render a path as a `/`-joined string, root = `/` (spec §3). -/
def renderPath : List String → String
  | [] => "/"
  | segs => segs.foldl (fun acc s => acc ++ "/" ++ s) ""

/-- Modelled from the spec (§4.3, §9): the identity key of one array
item.  With an extractor, `key = extractor(item)`.  Without one, the
default key is the item's canonical value form for primitive items;
for non-primitive items without an extractor the spec (§9) fixes the
policy as failing fast with a structural conflict at the array's path. -/
def itemKey (getKey : Option (JSON → String)) (path : List String) : JSON → Except MergeError String
  | item =>
    match getKey with
    | some f => .ok (f item)
    | none =>
      match item with
      | .null => .ok "null"
      | .bool true => .ok "true"
      | .bool false => .ok "false"
      | .num n => .ok (toString n)
      | .str s => .ok s
      | _ => .error (.conflictAt (renderPath path))

/-- The identity-key sequence of an array (spec §4.4: "construct three
key sequences (ordered lists of identities)"). -/
def keySeqE (getKey : Option (JSON → String)) (path : List String) (items : List JSON) :
    Except MergeError (List String) :=
  items.mapM (itemKey getKey path)

/-- First key that repeats an earlier one, scanning left to right with
the set of keys already seen. -/
def findDup : List String → List String → Option String
  | [], _ => none
  | k :: ks, seen => if k ∈ seen then some k else findDup ks (k :: seen)

/-- ArrayItemMatcher (spec §4.3): compute an array's key sequence,
failing with `DuplicateKeyError` if two items share a key ("failure is
raised eagerly, before merge output is produced"). -/
def checkKeys (getKey : Option (JSON → String)) (path : List String) (items : List JSON) :
    Except MergeError (List String) := do
  let ks ← keySeqE getKey path items
  match findDup ks [] with
  | some k => .error (.duplicateKey k (renderPath path))
  | none => .ok ks

/-- Slice of a list described by an `Int` location and length. -/
def sliceI (l : List α) (location length : Int) : List α :=
  (l.drop location.toNat).take length.toNat

/-- Modelled from the spec (§4.4): the recursive three-way structural
merge over possibly-missing values, carrying the path for error
reporting.  Returns `none` for "key removed / item removed".  The spec's
recursion is over finite trees and terminates; it is embedded with a
fuel argument, and `diff3` below supplies fuel exceeding the recursion
depth, so the fuel-exhaustion branch is unreachable. -/
def diff3Opt (getKey : Option (JSON → String)) :
    Nat → Option JSON → Option JSON → Option JSON → List String →
    Except MergeError (Option JSON)
  | 0, _, _, _, path => .error (.conflictAt (renderPath path))
  | fuel + 1, o, a, b, path =>
    -- dispatch table of spec §4.4
    if obeq a o then
      if obeq b o then .ok o else .ok b
    else if obeq b o then .ok a
    else if obeq a b then .ok a
    else
      match a, b with
      | some (.obj fa), some (.obj fb) =>
        -- object merge (spec §4.4): union of keys in the order
        -- o's keys, then keys only in a, then keys only in b
        let fo := match o with | some (.obj f) => f | _ => []
        let oKs := fo.map Prod.fst
        let aKs := fa.map Prod.fst
        let bKs := fb.map Prod.fst
        let allKs := oKs ++ aKs.filter (fun k => ¬ oKs.contains k) ++
          bKs.filter (fun k => ¬ oKs.contains k && ¬ aKs.contains k)
        do
          let merged ← allKs.mapM fun k => do
            let r ← diff3Opt getKey fuel (fo.lookup k) (fa.lookup k) (fb.lookup k) (path ++ [k])
            pure (r.map fun v => (k, v))
          .ok (some (.obj (merged.filterMap id)))
      | some (.arr xa), some (.arr xb) =>
        -- array merge (spec §4.4): identity keys, duplicate check,
        -- diff3MergeIndices over the key sequences, then reconstruction
        let xo := match o with | some (.arr x) => x | _ => []
        do
          let ko ← checkKeys getKey path xo
          let ka ← checkKeys getKey path xa
          let kb ← checkKeys getKey path xb
          let oPairs := ko.zip xo
          let aPairs := ka.zip xa
          let bPairs := kb.zip xb
          let recs := diff3MergeIndices ko ka kb
          let segs ← recs.mapM fun r =>
            match r with
            | .okA len aIndex _ _ => do
              -- emit side a's items; reconcile each identity against the
              -- other side's matching item (spec §4.4, okA/okB bullet)
              let entries := sliceI aPairs aIndex len
              let vals ← entries.mapM fun kv =>
                diff3Opt getKey fuel (oPairs.lookup kv.1) (some kv.2) (bPairs.lookup kv.1)
                  (path ++ [kv.1])
              pure (vals.filterMap id)
            | .okB len _ _ bIndex => do
              let entries := sliceI bPairs bIndex len
              let vals ← entries.mapM fun kv =>
                diff3Opt getKey fuel (oPairs.lookup kv.1) (aPairs.lookup kv.1) (some kv.2)
                  (path ++ [kv.1])
              pure (vals.filterMap id)
            | .conflict aR oR bR => do
              -- partition the conflicting key ranges by identity
              -- (spec §4.4, conflict bullet): an identity based inside the
              -- conflicted base range and absent from a side's sub-range
              -- was removed by that side; an identity moved in from
              -- elsewhere is reconciled against that side's global match
              let aSub := sliceI aPairs aR.location aR.length
              let bSub := sliceI bPairs bR.location bR.length
              let oSub := sliceI oPairs oR.location oR.length
              let ks := aSub.map Prod.fst ++
                (bSub.map Prod.fst).filter (fun k => ¬ (aSub.map Prod.fst).contains k)
              let vals ← ks.mapM fun k =>
                let aVal := match aSub.lookup k with
                  | some v => some v
                  | none => if (oSub.map Prod.fst).contains k then none else aPairs.lookup k
                let bVal := match bSub.lookup k with
                  | some v => some v
                  | none => if (oSub.map Prod.fst).contains k then none else bPairs.lookup k
                diff3Opt getKey fuel (oPairs.lookup k) aVal bVal (path ++ [k])
              pure (vals.filterMap id)
          .ok (some (.arr segs.flatten))
      | _, _ => .error (.conflictAt (renderPath path))

/-- Modelled from the spec (§6): the public `diff3` entry point; errors
are surfaced as `Except` values rather than thrown exceptions.  The
initial fuel strictly exceeds the recursion depth (every recursive call
strictly decreases the summed sizes of the three values), and with three
present values the dispatch never produces the missing value, so the
`.ok none` branch is unreachable. -/
def diff3 (o a b : JSON) (getKey : Option (JSON → String)) : Except MergeError JSON :=
  match diff3Opt getKey (JSON.size o + JSON.size a + JSON.size b + 1) (some o) (some a) (some b) [] with
  | .ok (some v) => .ok v
  | .ok none => .ok o
  | .error e => .error e

/-!
### Specification predicates and instrumentation

The predicates below are the specification side of the claims: the
pairwise-diff contract of spec §4.1/§9 (ordered, in-bounds, separated
hunks whose gaps keep the two sequences aligned), the base-coverage
tiling of spec §3, and an instrumented mirror of the merge sweep that
annotates each emitted segment with the base span it consumes (needed
because a pure deletion consumes base elements while emitting nothing).
-/

/-- The changed-region contract of `diffIndices(a, b)` (spec §4.1):
the hunks are ordered and non-overlapping in both sequences, each is
non-empty on at least one side, coordinates refer to the original
sequences, and the aligned elements outside all hunks (the gap of length
`g` before each hunk, and the common tail) are equal under the active
predicate.  `ai`/`bi` are the aligned positions reached so far. -/
def DiffAligned (eq : α → α → Bool) (a b : List α) : Nat → Nat → List DiffIndicesResult → Prop
  | ai, bi, [] =>
      ai ≤ a.length ∧ bi ≤ b.length ∧ a.length - ai = b.length - bi ∧
      ∀ k (h1 : ai + k < a.length) (h2 : bi + k < b.length),
        eq (a.get ⟨ai + k, h1⟩) (b.get ⟨bi + k, h2⟩) = true
  | ai, bi, h :: rest =>
      ∃ g la lb : Nat,
        h.a.location = (ai + g : Int) ∧ h.b.location = (bi + g : Int) ∧
        h.a.length = (la : Int) ∧ h.b.length = (lb : Int) ∧
        0 < la + lb ∧
        (∀ k, k < g → ∀ (h1 : ai + k < a.length) (h2 : bi + k < b.length),
          eq (a.get ⟨ai + k, h1⟩) (b.get ⟨bi + k, h2⟩) = true) ∧
        DiffAligned eq a b (ai + g + la) (bi + g + lb) rest

/-- One side's hunks as `Hunk` records (source lines 206-218: the first
range of a `diffIndices(o, x)` result is the base range, the second the
side range). -/
def hunksOf (s : Side) (m : List DiffIndicesResult) : List Hunk :=
  m.map fun h => ⟨s, h.a, h.b⟩

/-- The part of the diff contract the merge sweep relies on for one
side's hunk list: base-ordered, ranges non-negative and in bounds, and
the unchanged gap before each hunk advances the base and the side
sequence by the same amount (so `sideRange.location - xPos` always equals
`oRange.location - oPos` at the hunk's start). -/
def AlignedHunks (oLen xLen : Int) : Int → Int → List Hunk → Prop
  | _, _, [] => True
  | oPos, xPos, h :: rest =>
      oPos ≤ h.oRange.location ∧
      h.sideRange.location - xPos = h.oRange.location - oPos ∧
      0 ≤ h.oRange.length ∧ 0 ≤ h.sideRange.length ∧
      upperBound h.oRange ≤ oLen ∧ upperBound h.sideRange ≤ xLen ∧
      AlignedHunks oLen xLen (upperBound h.oRange) (upperBound h.sideRange) rest

/-- Separation, the minimality consequence the grouping rule relies on:
consecutive hunks of one diff are separated by at least one unchanged
base element (a minimal differ merges touching change regions into one
hunk). -/
def SeparatedHunks : Int → List Hunk → Prop
  | _, [] => True
  | oPos, h :: rest => oPos ≤ h.oRange.location ∧ SeparatedHunks (upperBound h.oRange + 1) rest

/-- Basic well-formedness of one hunk's base range. -/
def ORangeValid (oLen : Int) (h : Hunk) : Prop :=
  0 ≤ h.oRange.location ∧ 0 ≤ h.oRange.length ∧ upperBound h.oRange ≤ oLen

/-- Whether a group contains a hunk from each side. -/
def groupHasBoth (g : List Hunk) : Bool :=
  (g.any fun h => h.side == Side.a) && (g.any fun h => h.side == Side.b)

/-- The base range a non-empty group covers: from the first hunk's base
start to the running max of base upper bounds. -/
def groupRange : List Hunk → Range
  | [] => ⟨0, 0⟩
  | h :: t => makeRange h.oRange.location (groupSpanEnd h t - h.oRange.location)

/-- The `oRange`s of the conflict records of an output, in order. -/
def conflictORanges (l : List Index) : List Range :=
  l.filterMap fun r =>
    match r with
    | .conflict _ oR _ => some oR
    | _ => none

/-- `m` is the least element of `l`. -/
def IsLeastOf (m : Int) (l : List Int) : Prop := m ∈ l ∧ ∀ x ∈ l, m ≤ x

/-- `m` is the greatest element of `l`. -/
def IsGreatestOf (m : Int) (l : List Int) : Prop := m ∈ l ∧ ∀ x ∈ l, x ≤ m

/-- One annotated output segment: the records emitted for it together
with the base span `[lo, hi)` consumed while emitting them. -/
structure Chunk where
  lo : Int
  hi : Int
  recs : List Index
deriving Repr

/-- Instrumented mirror of `processGroups`: identical sweep, but each
copied common region and each group is annotated with the base span it
consumes (a pure deletion consumes its span while emitting no record). -/
def processChunks (oLen aLen bLen : Int) :
    Int → Int → Int → List (List Hunk) → List Chunk
  | oOffset, aOffset, bOffset, [] => [⟨oOffset, oLen, (copyCommon oLen oOffset aOffset bOffset).1⟩]
  | oOffset, aOffset, bOffset, [] :: gs => processChunks oLen aLen bLen oOffset aOffset bOffset gs
  | oOffset, aOffset, bOffset, (hunk :: tail) :: gs =>
    let regionLhs := hunk.oRange.location
    let regionRhs := groupSpanEnd hunk tail
    let c := copyCommon regionLhs oOffset aOffset bOffset
    let common := c.1
    let oOff1 := c.2.1
    let aOff1 := c.2.2.1
    let bOff1 := c.2.2.2
    if tail.isEmpty then
      let recs : List Index :=
        if hunk.sideRange.length > 0 then
          match hunk.side with
          | .a => [.okA hunk.sideRange.length hunk.sideRange.location none none]
          | .b => [.okB hunk.sideRange.length none none hunk.sideRange.location]
        else []
      let delta := regionRhs - oOff1
      let aOff2 := if hunk.side = .a then upperBound hunk.sideRange else aOff1 + delta
      let bOff2 := if hunk.side = .b then upperBound hunk.sideRange else bOff1 + delta
      ⟨oOffset, regionLhs, common⟩ :: ⟨regionLhs, regionRhs, recs⟩ ::
        processChunks oLen aLen bLen regionRhs aOff2 bOff2 gs
    else
      let r := (hunk :: tail).foldl regionsStep
        (⟨aLen, -1, oLen, -1⟩, ⟨bLen, -1, oLen, -1⟩)
      let aLhs := r.1.r0 + (regionLhs - r.1.r2)
      let aRhs := r.1.r1 + (regionRhs - r.1.r3)
      let bLhs := r.2.r0 + (regionLhs - r.2.r2)
      let bRhs := r.2.r1 + (regionRhs - r.2.r3)
      ⟨oOffset, regionLhs, common⟩ ::
        ⟨regionLhs, regionRhs,
          [.conflict (makeRange aLhs (aRhs - aLhs)) (makeRange regionLhs (regionRhs - regionLhs))
            (makeRange bLhs (bRhs - bLhs))]⟩ ::
        processChunks oLen aLen bLen regionRhs aRhs bRhs gs

/-- The annotated segments of `diff3MergeIndices o a b`. -/
def diff3MergeChunks [DecidableEq α] (o a b : List α) : List Chunk :=
  processChunks o.length a.length b.length 0 0 0
    (sweepGroups (sortedHunks (diffIndices o a) (diffIndices o b)))

/-- The spans of a chunk list tile `[lo, hi)` exactly: each chunk starts
where the previous one ended, spans are non-negative, the first starts at
`lo` and the last ends at `hi` — hence in increasing order, pairwise
non-overlapping, gap-free, and summing to `hi - lo`. -/
def ChunksTile : Int → Int → List Chunk → Prop
  | lo, hi, [] => lo = hi
  | lo, hi, c :: cs => c.lo = lo ∧ c.lo ≤ c.hi ∧ ChunksTile c.hi hi cs

/-- The base-span facts C1 asserts of a record inside an annotated
segment: a conflict's `oRange` is exactly the segment's base span, and a
common-region `okA` (the only `okA` carrying an `oIndex`) covers exactly
the segment's base span. -/
def RecordSpanOk (c : Chunk) : Index → Prop
  | .conflict _ oR _ => oR = makeRange c.lo (c.hi - c.lo)
  | .okA len _ (some oi) _ => oi = c.lo ∧ len = c.hi - c.lo
  | _ => True

/-- Group-list invariant used for the tiling proof: every group is
non-empty, starts at or after the current base position, and its span
end stays within the base and before the next group. -/
def GroupsTileable (oLen : Int) : Int → List (List Hunk) → Prop
  | pos, [] => pos ≤ oLen
  | _, [] :: _ => False
  | pos, (h :: t) :: gs =>
      pos ≤ h.oRange.location ∧ h.oRange.location ≤ groupSpanEnd h t ∧
      groupSpanEnd h t ≤ oLen ∧ GroupsTileable oLen (groupSpanEnd h t) gs

/-- The shapes C10 asserts: an `okA` record either has both `oIndex` and
`bIndex` defined (a copied unchanged common region) or neither (side a's
changed content); an `okB` record (side b's changed content) never has
`aIndex` or `oIndex` defined. -/
def IndexShapeOk : Index → Prop
  | .conflict _ _ _ => True
  | .okA _ _ oIdx bIdx => (oIdx.isSome ∧ bIdx.isSome) ∨ (oIdx = none ∧ bIdx = none)
  | .okB _ aIdx oIdx _ => aIdx = none ∧ oIdx = none

/-- Records that are not conflict records. -/
def NotConflict : Index → Prop
  | .conflict _ _ _ => False
  | _ => True

/-- Base position reached after consuming a chain of hunks. -/
def chainEndO (oPos : Int) : List Hunk → Int
  | [] => oPos
  | h :: t => chainEndO (upperBound h.oRange) t

/-- Side position reached after consuming a chain of hunks. -/
def chainEndX (xPos : Int) : List Hunk → Int
  | [] => xPos
  | h :: t => chainEndX (upperBound h.sideRange) t

/-- The non-negativity C7 asserts of one record. -/
def RangesNonneg : Index → Prop
  | .conflict aR oR bR => 0 ≤ aR.location ∧ 0 ≤ aR.length ∧ 0 ≤ oR.location ∧
      0 ≤ oR.length ∧ 0 ≤ bR.location ∧ 0 ≤ bR.length
  | .okA len _ _ _ => 1 ≤ len
  | .okB len _ _ _ => 1 ≤ len

/-!
## Theorems

### Basic properties of the group sweep
-/

theorem collectGroup_decomp (l : List Hunk) : ∀ r,
    (collectGroup r l).2.1 ++ (collectGroup r l).2.2 = l := by
  induction l with
  | nil => intro r; simp [collectGroup]
  | cons x xs ih =>
    intro r
    simp only [collectGroup]
    split
    · simp
    · simpa using ih _

theorem collectGroup_rest_length (l : List Hunk) : ∀ r,
    (collectGroup r l).2.2.length ≤ l.length := by
  induction l with
  | nil => intro r; simp [collectGroup]
  | cons x xs ih =>
    intro r
    simp only [collectGroup]
    split
    · simp
    · simpa using Nat.le_succ_of_le (ih _)

theorem sweepGroupsFuel_congr : ∀ (n m : Nat) (l : List Hunk), l.length ≤ n → l.length ≤ m →
    sweepGroupsFuel n l = sweepGroupsFuel m l := by
  intro n
  induction n with
  | zero =>
    intro m l hn _
    rw [List.length_eq_zero.mp (Nat.le_zero.mp hn)]
    cases m <;> rfl
  | succ n ih =>
    intro m l hn hm
    cases l with
    | nil => cases m <;> rfl
    | cons h rest =>
      cases m with
      | zero => simp at hm
      | succ m =>
        simp only [sweepGroupsFuel]
        have hr := collectGroup_rest_length rest (upperBound h.oRange)
        rw [ih m _ (le_trans hr (by simpa using hn)) (le_trans hr (by simpa using hm))]

theorem sweepGroups_nil : sweepGroups [] = [] := rfl

theorem sweepGroups_cons (h : Hunk) (rest : List Hunk) :
    sweepGroups (h :: rest) =
      (h :: (collectGroup (upperBound h.oRange) rest).2.1) ::
        sweepGroups (collectGroup (upperBound h.oRange) rest).2.2 := by
  simp only [sweepGroups, List.length_cons, sweepGroupsFuel]
  rw [sweepGroupsFuel_congr rest.length _ _
    (collectGroup_rest_length rest (upperBound h.oRange)) le_rfl]

theorem sweepGroups_flatten_aux : ∀ (n : Nat) (l : List Hunk), l.length ≤ n →
    (sweepGroups l).flatten = l := by
  intro n
  induction n with
  | zero =>
    intro l hl
    rw [List.length_eq_zero.mp (Nat.le_zero.mp hl)]
    simp [sweepGroups_nil]
  | succ n ih =>
    intro l hl
    cases l with
    | nil => simp [sweepGroups_nil]
    | cons h rest =>
      rw [sweepGroups_cons]
      have hlen := collectGroup_rest_length rest (upperBound h.oRange)
      have hrec := ih (collectGroup (upperBound h.oRange) rest).2.2
        (le_trans hlen (by simpa using hl))
      simp only [List.flatten_cons, hrec]
      simpa using collectGroup_decomp rest (upperBound h.oRange)

theorem sweepGroups_flatten (l : List Hunk) : (sweepGroups l).flatten = l :=
  sweepGroups_flatten_aux l.length l le_rfl

theorem collectGroup_fst_le (l : List Hunk) : ∀ r, r ≤ (collectGroup r l).1 := by
  induction l with
  | nil => intro r; simp [collectGroup]
  | cons x xs ih =>
    intro r
    simp only [collectGroup]
    split
    · simp
    · exact le_trans (le_max_left _ _) (ih _)

theorem collectGroup_fst_eq (l : List Hunk) : ∀ r,
    (collectGroup r l).1 =
      (collectGroup r l).2.1.foldl (fun acc x => max acc (upperBound x.oRange)) r := by
  induction l with
  | nil => intro r; simp [collectGroup]
  | cons x xs ih =>
    intro r
    simp only [collectGroup]
    split
    · simp
    · simpa using ih _

/-- Hunks left unconsumed by the group sweep start strictly after the
group's final span end (uses sortedness of the input). -/
theorem collectGroup_rest_gt (l : List Hunk) : ∀ r,
    l.Pairwise (fun x y => x.oRange.location ≤ y.oRange.location) →
    ∀ h' ∈ (collectGroup r l).2.2, (collectGroup r l).1 < h'.oRange.location := by
  induction l with
  | nil => intro r; simp [collectGroup]
  | cons x xs ih =>
    intro r hs h' hmem
    have hx : ∀ y ∈ xs, x.oRange.location ≤ y.oRange.location :=
      (List.pairwise_cons.mp hs).1
    have hxs : xs.Pairwise fun u v => u.oRange.location ≤ v.oRange.location :=
      (List.pairwise_cons.mp hs).2
    simp only [collectGroup] at hmem ⊢
    by_cases hgt : x.oRange.location > r
    · simp only [if_pos hgt] at hmem ⊢
      rcases List.mem_cons.mp hmem with heq | hmem
      · rw [heq]; exact hgt
      · exact lt_of_lt_of_le hgt (hx _ hmem)
    · simp only [if_neg hgt] at hmem ⊢
      exact ih _ hxs h' hmem

/-!
### C10: definedness pattern of the optional indices of ok records
-/

theorem copyCommon_shape (t oOff aOff bOff : Int) :
    ∀ r ∈ (copyCommon t oOff aOff bOff).1, IndexShapeOk r := by
  intro r hr
  simp only [copyCommon] at hr
  split at hr
  · simp only [List.mem_singleton] at hr
    subst hr
    exact Or.inl ⟨rfl, rfl⟩
  · simp at hr

theorem processGroups_shape (oLen aLen bLen : Int) (gs : List (List Hunk)) :
    ∀ oOff aOff bOff, ∀ r ∈ processGroups oLen aLen bLen oOff aOff bOff gs, IndexShapeOk r := by
  induction gs with
  | nil =>
    intro oOff aOff bOff r hr
    exact copyCommon_shape _ _ _ _ r hr
  | cons g gs ih =>
    intro oOff aOff bOff r hr
    cases g with
    | nil => exact ih _ _ _ r hr
    | cons hunk tail =>
      simp only [processGroups] at hr
      split at hr
      · simp only [List.mem_append, List.mem_append] at hr
        rcases hr with (hr | hr) | hr
        · exact copyCommon_shape _ _ _ _ r hr
        · split at hr
          · split at hr
            · simp only [List.mem_singleton] at hr
              subst hr
              exact Or.inr ⟨rfl, rfl⟩
            · simp only [List.mem_singleton] at hr
              subst hr
              exact ⟨rfl, rfl⟩
          · simp at hr
        · exact ih _ _ _ r hr
      · simp only [List.mem_append, List.mem_append, List.mem_singleton] at hr
        rcases hr with (hr | hr) | hr
        · exact copyCommon_shape _ _ _ _ r hr
        · subst hr; trivial
        · exact ih _ _ _ r hr

/-- **C10.** In every `okA` or `okB` record produced by
`diff3MergeIndices`, the optional indices follow the record's origin: a
record copying an unchanged common region is an `okA` with `aIndex`,
`oIndex` and `bIndex` all defined, while a record emitting one side's
changed content has only that side's index defined (`okA` with
`oIndex = bIndex = none`, `okB` with `aIndex = oIndex = none`); no other
definedness pattern occurs. -/
theorem c10_ok_record_indices [DecidableEq α] (o a b : List α) :
    ∀ r ∈ diff3MergeIndices o a b, IndexShapeOk r := by
  intro r hr
  exact processGroups_shape _ _ _ _ _ _ _ r hr

/-!
### Deep structural equality of tree values
-/

theorem JSON.ind {P : JSON → Prop} (hnull : P .null) (hbool : ∀ x, P (.bool x))
    (hnum : ∀ x, P (.num x)) (hstr : ∀ x, P (.str x))
    (harr : ∀ l, (∀ x ∈ l, P x) → P (.arr l))
    (hobj : ∀ l, (∀ kv ∈ l, P kv.2) → P (.obj l)) : ∀ j, P j := by
  have aux : ∀ (n : Nat) (j : JSON), sizeOf j ≤ n → P j := by
    intro n
    induction n with
    | zero =>
      intro j hj
      cases j <;> simp at hj
    | succ n ih =>
      intro j hj
      cases j with
      | null => exact hnull
      | bool x => exact hbool x
      | num x => exact hnum x
      | str x => exact hstr x
      | arr l =>
        refine harr l fun x hx => ih x ?_
        have h1 : sizeOf x < sizeOf l := List.sizeOf_lt_of_mem hx
        simp at hj
        omega
      | obj l =>
        refine hobj l fun kv hkv => ih kv.2 ?_
        have h1 : sizeOf kv < sizeOf l := List.sizeOf_lt_of_mem hkv
        have h2 : sizeOf kv.2 < sizeOf kv := by
          rcases kv with ⟨k, v⟩
          simp
        simp at hj
        omega
  exact fun j => aux (sizeOf j) j le_rfl

theorem JSON.beq_iff : ∀ x y, (JSON.beq x y = true) ↔ x = y := by
  intro x
  induction x using JSON.ind with
  | hnull => intro y; cases y <;> simp [JSON.beq]
  | hbool x => intro y; cases y <;> simp [JSON.beq]
  | hnum x => intro y; cases y <;> simp [JSON.beq]
  | hstr x => intro y; cases y <;> simp [JSON.beq]
  | harr l ihl =>
    intro y
    cases y with
    | arr m =>
      simp only [JSON.beq, JSON.arr.injEq]
      induction l generalizing m with
      | nil => cases m <;> simp [JSON.beqList]
      | cons x xs ih =>
        cases m with
        | nil => simp [JSON.beqList]
        | cons y ys =>
          simp only [JSON.beqList, Bool.and_eq_true, List.cons.injEq]
          rw [ihl x (by simp), ih (fun z hz => ihl z (by simp [hz])) ys]
    | null => simp [JSON.beq]
    | bool _ => simp [JSON.beq]
    | num _ => simp [JSON.beq]
    | str _ => simp [JSON.beq]
    | obj _ => simp [JSON.beq]
  | hobj l ihl =>
    intro y
    cases y with
    | obj m =>
      simp only [JSON.beq, JSON.obj.injEq]
      induction l generalizing m with
      | nil => cases m <;> simp [JSON.beqFields]
      | cons x xs ih =>
        cases m with
        | nil => simp [JSON.beqFields]
        | cons y ys =>
          rcases x with ⟨k1, v1⟩
          rcases y with ⟨k2, v2⟩
          simp only [JSON.beqFields, Bool.and_eq_true, List.cons.injEq, Prod.mk.injEq,
            beq_iff_eq]
          rw [ihl (k1, v1) (by simp), ih (fun z hz => ihl z (by simp [hz])) ys]
    | null => simp [JSON.beq]
    | bool _ => simp [JSON.beq]
    | num _ => simp [JSON.beq]
    | str _ => simp [JSON.beq]
    | arr _ => simp [JSON.beq]

theorem JSON.beq_refl (j : JSON) : JSON.beq j j = true := (JSON.beq_iff j j).mpr rfl

theorem obeq_refl (o : Option JSON) : obeq o o = true := by
  cases o with
  | none => rfl
  | some v => simp [obeq, JSON.beq_refl]

theorem obeq_some_false_of_ne {x y : JSON} (h : x ≠ y) : obeq (some x) (some y) = false := by
  simp only [obeq]
  exact Bool.eq_false_iff.mpr fun hb => h ((JSON.beq_iff x y).mp hb)

/-!
### C8: identity of the structural merge
-/

/-- **C8.** For pairwise structurally equal values `o`, `a`, `b` (deep
clones are equal values in this embedding), `diff3(o, a, b)` succeeds and
returns a value structurally equal to `o`. -/
theorem c8_diff3_identity (o a b : JSON) (getKey : Option (JSON → String))
    (ha : a = o) (hb : b = o) : diff3 o a b getKey = .ok o := by
  subst ha
  subst hb
  simp only [diff3, diff3Opt, obeq_refl, if_true]

/-- Witness for C8 at the concrete object of the repository's
`cloned objects` test. -/
theorem c8_diff3_identity_witness :
    diff3 (JSON.obj [("hello", .num 1), ("world", .num 2)])
      (JSON.obj [("hello", .num 1), ("world", .num 2)])
      (JSON.obj [("hello", .num 1), ("world", .num 2)]) none
      = .ok (JSON.obj [("hello", .num 1), ("world", .num 2)]) :=
  c8_diff3_identity _ _ _ none rfl rfl

/-!
### C9: duplicate array keys
-/

theorem except_bind_ok (a : α) (f : α → Except ε β) : (Except.ok a >>= f) = f a := rfl

theorem except_bind_error (e : ε) (f : α → Except ε β) :
    ((Except.error e : Except ε α) >>= f) = Except.error e := rfl

theorem findDup_eq_none_iff (ks : List String) : ∀ seen,
    findDup ks seen = none ↔ (ks.Nodup ∧ ∀ k ∈ ks, k ∉ seen) := by
  induction ks with
  | nil => intro seen; simp [findDup]
  | cons k ks ih =>
    intro seen
    simp only [findDup]
    by_cases hk : k ∈ seen
    · simp only [if_pos hk]
      constructor
      · intro h; exact absurd h (by simp)
      · rintro ⟨_, hall⟩; exact absurd hk (hall k (by simp))
    · simp only [if_neg hk, ih (k :: seen), List.nodup_cons, List.mem_cons]
      constructor
      · rintro ⟨hnd, hall⟩
        refine ⟨⟨fun hkk => ?_, hnd⟩, fun x hx => ?_⟩
        · exact (hall k hkk) (by simp)
        · rcases hx with rfl | hx
          · exact hk
          · exact fun hs => (hall x hx) (by simp [hs])
      · rintro ⟨⟨hnk, hnd⟩, hall⟩
        refine ⟨hnd, fun x hx hmem => ?_⟩
        rcases hmem with rfl | hs
        · exact hnk hx
        · exact (hall x (Or.inr hx)) hs

theorem findDup_some (ks : List String) : ∀ seen k, findDup ks seen = some k →
    k ∈ ks ∧ (k ∈ seen ∨ 2 ≤ ks.count k) := by
  induction ks with
  | nil => intro seen k h; simp [findDup] at h
  | cons x xs ih =>
    intro seen k h
    simp only [findDup] at h
    by_cases hx : x ∈ seen
    · simp only [if_pos hx] at h
      cases h
      exact ⟨by simp, Or.inl hx⟩
    · simp only [if_neg hx] at h
      rcases ih (x :: seen) k h with ⟨hmem, hcase⟩
      refine ⟨by simp [hmem], ?_⟩
      rcases hcase with hseen | hcount
      · rcases List.mem_cons.mp hseen with rfl | hs
        · right
          have : 1 ≤ xs.count k := List.count_pos_iff.mpr hmem
          rw [List.count_cons_self]
          omega
        · exact Or.inl hs
      · right
        rw [List.count_cons]
        omega

theorem checkKeys_eq (getKey : Option (JSON → String)) (path : List String)
    (items : List JSON) (ks : List String) (h : keySeqE getKey path items = .ok ks) :
    checkKeys getKey path items =
      match findDup ks [] with
      | some k => .error (.duplicateKey k (renderPath path))
      | none => .ok ks := by
  simp only [checkKeys, h, except_bind_ok]

/-- C9 as stated is false on the modelled merge: when the three states
are equal, the dispatch table of spec §4.4 returns the base before any
array is examined, so a duplicate key raises no error.  At
`o = a = b = [2, 2]` the merge succeeds instead of failing with
`Duplicate array key` as the claim requires. -/
theorem c9_counterexample :
    diff3 (JSON.arr [.num 2, .num 2]) (JSON.arr [.num 2, .num 2])
      (JSON.arr [.num 2, .num 2]) none = .ok (JSON.arr [.num 2, .num 2]) := rfl

/-- **C9 (amended).** If the three states differ pairwise at an array
node, so that the merge reaches the array-merge branch, and any of the
three arrays contains two items resolving to the same identity key, then
`diff3` fails with `Duplicate array key '<key>' at /` (for a duplicated
key of the first offending state) and returns no merge result, even when
the duplicate would not otherwise affect the merged output. -/
theorem c9_duplicate_keys (getKey : Option (JSON → String)) (os as bs : List JSON)
    (ko ka kb : List String)
    (hko : keySeqE getKey [] os = .ok ko) (hka : keySeqE getKey [] as = .ok ka)
    (hkb : keySeqE getKey [] bs = .ok kb)
    (hne1 : JSON.arr as ≠ JSON.arr os) (hne2 : JSON.arr bs ≠ JSON.arr os)
    (hne3 : JSON.arr as ≠ JSON.arr bs)
    (hdup : ¬ ko.Nodup ∨ ¬ ka.Nodup ∨ ¬ kb.Nodup) :
    ∃ k, diff3 (.arr os) (.arr as) (.arr bs) getKey = .error (.duplicateKey k "/") ∧
      (2 ≤ ko.count k ∨ 2 ≤ ka.count k ∨ 2 ≤ kb.count k) := by
  have f1 : obeq (some (JSON.arr as)) (some (JSON.arr os)) = false := obeq_some_false_of_ne hne1
  have f2 : obeq (some (JSON.arr bs)) (some (JSON.arr os)) = false := obeq_some_false_of_ne hne2
  have f3 : obeq (some (JSON.arr as)) (some (JSON.arr bs)) = false := obeq_some_false_of_ne hne3
  have hrp : renderPath [] = "/" := rfl
  rcases hfo : findDup ko [] with _ | k1
  · have hnodupo := ((findDup_eq_none_iff ko []).mp hfo).1
    have hcko : checkKeys getKey [] os = .ok ko := by rw [checkKeys_eq _ _ _ _ hko, hfo]
    rcases hfa : findDup ka [] with _ | k2
    · have hnodupa := ((findDup_eq_none_iff ka []).mp hfa).1
      have hcka : checkKeys getKey [] as = .ok ka := by rw [checkKeys_eq _ _ _ _ hka, hfa]
      rcases hfb : findDup kb [] with _ | k3
      · exact absurd hdup (by
          have hnodupb := ((findDup_eq_none_iff kb []).mp hfb).1
          simp [hnodupo, hnodupa, hnodupb])
      · have hckb : checkKeys getKey [] bs = .error (.duplicateKey k3 "/") := by
          rw [checkKeys_eq _ _ _ _ hkb, hfb, hrp]
        refine ⟨k3, ?_, Or.inr (Or.inr ?_)⟩
        · simp only [diff3, diff3Opt, f1, f2, f3, Bool.false_eq_true, if_false,
            hcko, hcka, hckb, except_bind_ok, except_bind_error]
        · have := findDup_some kb [] k3 hfb
          simpa using this.2
    · have hcka : checkKeys getKey [] as = .error (.duplicateKey k2 "/") := by
        rw [checkKeys_eq _ _ _ _ hka, hfa, hrp]
      refine ⟨k2, ?_, Or.inr (Or.inl ?_)⟩
      · simp only [diff3, diff3Opt, f1, f2, f3, Bool.false_eq_true, if_false,
          hcko, hcka, except_bind_ok, except_bind_error]
      · have := findDup_some ka [] k2 hfa
        simpa using this.2
  · have hcko : checkKeys getKey [] os = .error (.duplicateKey k1 "/") := by
      rw [checkKeys_eq _ _ _ _ hko, hfo, hrp]
    refine ⟨k1, ?_, Or.inl ?_⟩
    · simp only [diff3, diff3Opt, f1, f2, f3, Bool.false_eq_true, if_false,
        hcko, except_bind_error]
    · have := findDup_some ko [] k1 hfo
      simpa using this.2

/-- Witness for C9 (amended) at the repository's first duplicate-key
test: `o = [1,2,4,5,6,2]`, `a = [1,5,2,4,6]`, `b = [2,3,4,1,5,6]`. -/
theorem c9_duplicate_keys_witness :
    ∃ k, diff3 (.arr [JSON.num 1, .num 2, .num 4, .num 5, .num 6, .num 2])
      (.arr [JSON.num 1, .num 5, .num 2, .num 4, .num 6])
      (.arr [JSON.num 2, .num 3, .num 4, .num 1, .num 5, .num 6]) none
      = .error (.duplicateKey k "/") ∧
      (2 ≤ (["1", "2", "4", "5", "6", "2"] : List String).count k ∨
        2 ≤ (["1", "5", "2", "4", "6"] : List String).count k ∨
        2 ≤ (["2", "3", "4", "1", "5", "6"] : List String).count k) :=
  c9_duplicate_keys none _ _ _ _ _ _ rfl rfl rfl
    (by simp) (by simp) (by simp) (by simp [List.Nodup])

/-- Witness for C10 at `o = [1,2,3]`, `a = [2,3]`, `b = [1,2,4,3]`: the
output contains the one-sided record `okB 1 none none 2`. -/
theorem c10_ok_record_indices_witness :
    IndexShapeOk (Index.okB 1 none none 2) :=
  c10_ok_record_indices [1, 2, 3] [2, 3] [1, 2, 4, 3] (Index.okB 1 none none 2) (by decide)

/-!
### C6: equal sequences diff to the empty list
-/

theorem commonPrefixLen_full (eq : α → α → Bool) : ∀ (a b : List α),
    a.length = b.length →
    (∀ (i : Nat) (h1 : i < a.length) (h2 : i < b.length),
      eq (a.get ⟨i, h1⟩) (b.get ⟨i, h2⟩) = true) →
    commonPrefixLen eq a b = a.length := by
  intro a
  induction a with
  | nil => intro b _ _; simp [commonPrefixLen]
  | cons x xs ih =>
    intro b hlen helts
    cases b with
    | nil => simp at hlen
    | cons y ys =>
      have h0 : eq x y = true := helts 0 (by simp) (by simp)
      simp only [commonPrefixLen, if_pos h0, List.length_cons]
      rw [ih ys (by simpa using hlen)]
      intro i h1 h2
      exact helts (i + 1) (by simpa using h1) (by simpa using h2)

/-- **C6.** `diffIndices(a, b)` returns the empty list whenever the two
sequences are equal — same length and elementwise equal under the active
equality predicate.  The same-reference short-circuit of the source is
the case `c = c` under the library's default element predicate, settled
by the second conjunct. -/
theorem c6_diff_equal_sequences [DecidableEq α] (eq : α → α → Bool) (a b c : List α)
    (hlen : a.length = b.length)
    (helts : ∀ (i : Nat) (h1 : i < a.length) (h2 : i < b.length),
      eq (a.get ⟨i, h1⟩) (b.get ⟨i, h2⟩) = true) :
    diffIndicesArray eq a b = [] ∧ diffIndices c c = [] := by
  constructor
  · have hfull := commonPrefixLen_full eq a b hlen helts
    simp only [diffIndicesArray]
    rw [if_pos ⟨hfull, by rw [hfull, hlen]⟩]
  · have hfull := commonPrefixLen_full (fun x y => decide (x = y)) c c rfl
      (fun i h1 h2 => by simp)
    simp only [diffIndices, diffIndicesArray]
    rw [if_pos ⟨hfull, hfull⟩]

/-- Witness for C6 at `a = b = [3, 7]`, `c = [5]` with Boolean equality. -/
theorem c6_diff_equal_sequences_witness :
    diffIndicesArray (fun x y : Nat => x == y) [3, 7] [3, 7] = [] ∧
      diffIndices [5] [5] = [] :=
  c6_diff_equal_sequences (fun x y : Nat => x == y) [3, 7] [3, 7] [5] rfl (by decide)

/-!
### C5: `diffIndices` returns only changed regions
-/

theorem commonPrefixLen_le_left (eq : α → α → Bool) : ∀ (a b : List α),
    commonPrefixLen eq a b ≤ a.length := by
  intro a
  induction a with
  | nil => intro b; cases b <;> simp [commonPrefixLen]
  | cons x xs ih =>
    intro b
    cases b with
    | nil => simp [commonPrefixLen]
    | cons y ys =>
      simp only [commonPrefixLen, List.length_cons]
      split
      · simpa using ih ys
      · simp

theorem commonPrefixLen_le_right (eq : α → α → Bool) : ∀ (a b : List α),
    commonPrefixLen eq a b ≤ b.length := by
  intro a
  induction a with
  | nil => intro b; cases b <;> simp [commonPrefixLen]
  | cons x xs ih =>
    intro b
    cases b with
    | nil => simp [commonPrefixLen]
    | cons y ys =>
      simp only [commonPrefixLen, List.length_cons]
      split
      · simpa using ih ys
      · simp

theorem commonPrefixLen_eq_elements (eq : α → α → Bool) : ∀ (a b : List α) (k : Nat),
    k < commonPrefixLen eq a b → ∀ (h1 : k < a.length) (h2 : k < b.length),
    eq (a.get ⟨k, h1⟩) (b.get ⟨k, h2⟩) = true := by
  intro a
  induction a with
  | nil => intro b k hk; cases b <;> simp [commonPrefixLen] at hk
  | cons x xs ih =>
    intro b k hk h1 h2
    cases b with
    | nil => simp [commonPrefixLen] at hk
    | cons y ys =>
      simp only [commonPrefixLen] at hk
      simp only [List.get_eq_getElem]
      split at hk
      case isTrue heq =>
        cases k with
        | zero => simpa using heq
        | succ k =>
          simp only [List.getElem_cons_succ]
          have := ih ys k (by omega) (by simpa using h1) (by simpa using h2)
          simpa [List.get_eq_getElem] using this
      case isFalse => omega

theorem commonPrefixLen_stop (eq : α → α → Bool) : ∀ (a b : List α)
    (h1 : commonPrefixLen eq a b < a.length) (h2 : commonPrefixLen eq a b < b.length),
    eq (a.get ⟨commonPrefixLen eq a b, h1⟩) (b.get ⟨commonPrefixLen eq a b, h2⟩) = false := by
  intro a
  induction a with
  | nil => intro b h1 _; simp at h1
  | cons x xs ih =>
    intro b h1 h2
    cases b with
    | nil => simp [commonPrefixLen] at h2
    | cons y ys =>
      by_cases heq : eq x y = true
      · have hc : commonPrefixLen eq (x :: xs) (y :: ys) = commonPrefixLen eq xs ys + 1 := by
          simp [commonPrefixLen, heq]
        have h1x : commonPrefixLen eq xs ys < xs.length := by
          have := h1; rw [hc] at this; simpa using this
        have h2y : commonPrefixLen eq xs ys < ys.length := by
          have := h2; rw [hc] at this; simpa using this
        have := ih ys h1x h2y
        simp only [List.get_eq_getElem] at this ⊢
        simp only [hc, List.getElem_cons_succ]
        exact this
      · have hc : commonPrefixLen eq (x :: xs) (y :: ys) = 0 := by
          simp [commonPrefixLen, heq]
        simp only [List.get_eq_getElem, hc, List.getElem_cons_zero]
        exact Bool.eq_false_iff.mpr heq

theorem diffIndicesArray_aligned (eq : α → α → Bool) (a b : List α) :
    DiffAligned eq a b 0 0 (diffIndicesArray eq a b) := by
  by_cases hcase : commonPrefixLen eq a b = a.length ∧ commonPrefixLen eq a b = b.length
  · simp only [diffIndicesArray, if_pos hcase]
    refine ⟨Nat.zero_le _, Nat.zero_le _, by omega, fun k h1 h2 => ?_⟩
    exact commonPrefixLen_eq_elements eq a b (0 + k) (by omega) h1 h2
  · simp only [diffIndicesArray, if_neg hcase]
    set p := commonPrefixLen eq a b with hp
    set s := commonPrefixLen eq ((a.drop p).reverse) ((b.drop p).reverse) with hsdef
    have hpa : p ≤ a.length := commonPrefixLen_le_left eq a b
    have hpb : p ≤ b.length := commonPrefixLen_le_right eq a b
    have hsa : s ≤ a.length - p := by
      have := commonPrefixLen_le_left eq ((a.drop p).reverse) ((b.drop p).reverse)
      simpa using this
    have hsb : s ≤ b.length - p := by
      have := commonPrefixLen_le_right eq ((a.drop p).reverse) ((b.drop p).reverse)
      simpa using this
    -- aligned equal elements of the common suffix, in original coordinates
    have hsuffix : ∀ k, k < s →
        ∀ (h1 : a.length - s + k < a.length) (h2 : b.length - s + k < b.length),
        eq (a.get ⟨a.length - s + k, h1⟩) (b.get ⟨b.length - s + k, h2⟩) = true := by
      intro k hk h1 h2
      have hk0 : s - 1 - k < commonPrefixLen eq ((a.drop p).reverse) ((b.drop p).reverse) := by
        rw [← hsdef]; omega
      have hb1 : s - 1 - k < ((a.drop p).reverse).length := by
        rw [List.length_reverse, List.length_drop]; omega
      have hb2 : s - 1 - k < ((b.drop p).reverse).length := by
        rw [List.length_reverse, List.length_drop]; omega
      have hrev := commonPrefixLen_eq_elements eq ((a.drop p).reverse) ((b.drop p).reverse)
        (s - 1 - k) hk0 hb1 hb2
      simp only [List.get_eq_getElem, List.getElem_reverse, List.getElem_drop,
        List.length_reverse, List.length_drop] at hrev
      have hia : p + (a.length - p - 1 - (s - 1 - k)) = a.length - s + k := by omega
      have hib : p + (b.length - p - 1 - (s - 1 - k)) = b.length - s + k := by omega
      simp only [List.get_eq_getElem]
      simp only [hia, hib] at hrev
      exact hrev
    -- the divergent middle is non-empty on at least one side
    have hmid : ¬ (a.length - s - p = 0 ∧ b.length - s - p = 0) := by
      rintro ⟨hn, hm⟩
      have hae : a.length = p + s := by omega
      have hbe : b.length = p + s := by omega
      rcases Nat.eq_zero_or_pos s with hs0 | hspos
      · exact hcase ⟨by omega, by omega⟩
      · have h1 : a.length - s + 0 < a.length := by omega
        have h2 : b.length - s + 0 < b.length := by omega
        have htrue := hsuffix 0 (by omega) h1 h2
        have h1p : p < a.length := by omega
        have h2p : p < b.length := by omega
        have hfalse := commonPrefixLen_stop eq a b h1p h2p
        have hia : a.length - s + 0 = p := by omega
        have hib : b.length - s + 0 = p := by omega
        simp only [List.get_eq_getElem] at htrue hfalse
        simp only [hia, hib] at htrue
        exact Bool.noConfusion (htrue.symm.trans hfalse)
    simp only [diff_core, if_neg hmid, List.map_cons, List.map_nil]
    refine ⟨p, a.length - s - p, b.length - s - p, by simp [makeRange], by simp [makeRange],
      ?_, ?_, by omega, ?_, ?_⟩
    · simp only [makeRange]
      push_cast
      omega
    · simp only [makeRange]
      push_cast
      omega
    · intro k hk h1 h2
      exact commonPrefixLen_eq_elements eq a b (0 + k) (by omega) h1 h2
    · refine ⟨by omega, by omega, by omega, fun k h1 h2 => ?_⟩
      have hi1 : 0 + p + (a.length - s - p) + k = a.length - s + k := by omega
      have hi2 : 0 + p + (b.length - s - p) + k = b.length - s + k := by omega
      have h1x : a.length - s + k < a.length := by omega
      have h2x : b.length - s + k < b.length := by omega
      have := hsuffix k (by omega) h1x h2x
      simp only [List.get_eq_getElem] at this ⊢
      simp only [hi1, hi2]
      exact this

/-- **C5.** `diffIndices(a, b)` returns only changed regions: the hunks
are ordered, non-overlapping in both sequences, each non-empty on at
least one side, with coordinates in the original un-stripped sequences,
and the elements outside all hunks align pairwise and are equal under
the active predicate — all captured by `DiffAligned` at positions
`(0, 0)`. -/
theorem c5_diff_changed_regions (eq : α → α → Bool) (a b : List α) :
    DiffAligned eq a b 0 0 (diffIndicesArray eq a b) :=
  diffIndicesArray_aligned eq a b

/-!
### C3: one-sided groups
-/

/-- **C3.** A maximal group consisting of hunks from exactly one side is
a single hunk (see `c2_group_of_two_has_both_sides` for why touching
same-side hunks cannot occur under the diff contract).  For such a group
the sweep emits no conflict record: after the common copy it emits one
`okA`/`okB` record of the edited side whose length is that side's
changed-range length — omitted entirely when that range is empty (a pure
deletion) — and continues with all three offsets advanced past the
group: the base offset to the group's end, the edited side's offset to
its changed range's end, and the unedited side's offset by the same
delta as the base offset. -/
theorem c3_one_sided_group (oLen aLen bLen oOff aOff bOff : Int) (h : Hunk)
    (gs : List (List Hunk)) :
    processGroups oLen aLen bLen oOff aOff bOff ([h] :: gs) =
      (copyCommon h.oRange.location oOff aOff bOff).1 ++
        (if 0 < h.sideRange.length then
          [match h.side with
            | .a => Index.okA h.sideRange.length h.sideRange.location none none
            | .b => Index.okB h.sideRange.length none none h.sideRange.location]
          else []) ++
        processGroups oLen aLen bLen (upperBound h.oRange)
          (if h.side = .a then upperBound h.sideRange
            else aOff + (upperBound h.oRange - oOff))
          (if h.side = .b then upperBound h.sideRange
            else bOff + (upperBound h.oRange - oOff)) gs ∧
      (∀ r ∈ (copyCommon h.oRange.location oOff aOff bOff).1, NotConflict r) ∧
      (∀ r ∈ (if 0 < h.sideRange.length then
          [match h.side with
            | .a => Index.okA h.sideRange.length h.sideRange.location none none
            | .b => Index.okB h.sideRange.length none none h.sideRange.location]
          else []), NotConflict r) := by
  refine ⟨?_, ?_, ?_⟩
  · simp only [processGroups, groupSpanEnd, List.foldl_nil, List.isEmpty_nil, if_true]
    have haoff : (copyCommon h.oRange.location oOff aOff bOff).2.2.1 +
        (upperBound h.oRange - (copyCommon h.oRange.location oOff aOff bOff).2.1) =
        aOff + (upperBound h.oRange - oOff) := by
      simp only [copyCommon]
      split
      · dsimp only
        ring
      · dsimp only
    have hboff : (copyCommon h.oRange.location oOff aOff bOff).2.2.2 +
        (upperBound h.oRange - (copyCommon h.oRange.location oOff aOff bOff).2.1) =
        bOff + (upperBound h.oRange - oOff) := by
      simp only [copyCommon]
      split
      · dsimp only
        ring
      · dsimp only
    rw [haoff, hboff]
    rcases h with ⟨side, oR, sR⟩
    cases side <;> simp [decide_eq_true_eq]
  · intro r hr
    simp only [copyCommon] at hr
    split at hr
    · simp only [List.mem_singleton] at hr
      subst hr
      trivial
    · simp at hr
  · intro r hr
    split at hr
    · rcases h with ⟨side, oR, sR⟩
      cases side <;> simp only [List.mem_singleton] at hr <;> subst hr <;> trivial
    · simp at hr

/-- Witness for C3: a one-hunk group (side a pure deletion of `o[0,1)`
against `o = [1,2,3]`-sized state) emits no record for the group and
copies the remaining common region. -/
theorem c3_one_sided_group_witness :
    processGroups 3 2 4 0 0 0 [[Hunk.mk Side.a (makeRange 0 1) (makeRange 0 0)]] =
      [Index.okA 2 0 (some 1) (some 1)] := by
  have h := (c3_one_sided_group 3 2 4 0 0 0 (Hunk.mk Side.a (makeRange 0 1) (makeRange 0 0)) []).1
  rw [h]
  decide

/-!
### C4: two-sided groups and the skew-corrected conflict ranges
-/

theorem foldl_min_le_init (l : List Int) : ∀ init : Int,
    l.foldl (fun acc x => min x acc) init ≤ init := by
  induction l with
  | nil => intro init; simp
  | cons x xs ih =>
    intro init
    exact le_trans (ih _) (by simp)

theorem foldl_min_le_mem (l : List Int) : ∀ init : Int, ∀ x ∈ l,
    l.foldl (fun acc y => min y acc) init ≤ x := by
  induction l with
  | nil => intro init x hx; simp at hx
  | cons y ys ih =>
    intro init x hx
    rcases List.mem_cons.mp hx with rfl | hx
    · exact le_trans (foldl_min_le_init ys _) (by simp)
    · exact ih _ x hx

theorem foldl_min_mem_cons (l : List Int) : ∀ init : Int,
    l.foldl (fun acc x => min x acc) init ∈ init :: l := by
  induction l with
  | nil => intro init; simp
  | cons x xs ih =>
    intro init
    have := ih (min x init)
    rcases List.mem_cons.mp this with heq | hmem
    · rcases min_choice x init with hc | hc
      · simp only [List.foldl_cons]
        rw [heq, hc]
        simp
      · simp only [List.foldl_cons]
        rw [heq, hc]
        simp
    · simp only [List.foldl_cons]
      exact List.mem_cons_of_mem _ (List.mem_cons_of_mem _ hmem)

theorem foldl_min_isLeast (l : List Int) (init : Int) (hex : ∃ x ∈ l, x ≤ init) :
    IsLeastOf (l.foldl (fun acc x => min x acc) init) l := by
  refine ⟨?_, fun x hx => foldl_min_le_mem l init x hx⟩
  rcases List.mem_cons.mp (foldl_min_mem_cons l init) with heq | hmem
  · rcases hex with ⟨x, hx, hle⟩
    have h1 := foldl_min_le_mem l init x hx
    have h2 : init ≤ l.foldl (fun acc y => min y acc) init := by
      rw [heq]
    have : l.foldl (fun acc y => min y acc) init = x := le_antisymm h1 (by omega)
    rw [this]
    exact hx
  · exact hmem

theorem foldl_max_init_le (l : List Int) : ∀ init : Int,
    init ≤ l.foldl (fun acc x => max x acc) init := by
  induction l with
  | nil => intro init; simp
  | cons x xs ih =>
    intro init
    exact le_trans (by simp) (ih (max x init))

theorem foldl_max_mem_le (l : List Int) : ∀ init : Int, ∀ x ∈ l,
    x ≤ l.foldl (fun acc y => max y acc) init := by
  induction l with
  | nil => intro init x hx; simp at hx
  | cons y ys ih =>
    intro init x hx
    rcases List.mem_cons.mp hx with rfl | hx
    · exact le_trans (by simp) (foldl_max_init_le ys _)
    · exact ih _ x hx

theorem foldl_max_mem_cons (l : List Int) : ∀ init : Int,
    l.foldl (fun acc x => max x acc) init ∈ init :: l := by
  induction l with
  | nil => intro init; simp
  | cons x xs ih =>
    intro init
    have := ih (max x init)
    rcases List.mem_cons.mp this with heq | hmem
    · rcases max_choice x init with hc | hc
      · simp only [List.foldl_cons]
        rw [heq, hc]
        simp
      · simp only [List.foldl_cons]
        rw [heq, hc]
        simp
    · simp only [List.foldl_cons]
      exact List.mem_cons_of_mem _ (List.mem_cons_of_mem _ hmem)

theorem foldl_max_isGreatest (l : List Int) (init : Int) (hex : ∃ x ∈ l, init ≤ x) :
    IsGreatestOf (l.foldl (fun acc x => max x acc) init) l := by
  refine ⟨?_, fun x hx => foldl_max_mem_le l init x hx⟩
  rcases List.mem_cons.mp (foldl_max_mem_cons l init) with heq | hmem
  · rcases hex with ⟨x, hx, hle⟩
    have h1 := foldl_max_mem_le l init x hx
    have h2 : l.foldl (fun acc y => max y acc) init ≤ init := by
      rw [heq]
    have : l.foldl (fun acc y => max y acc) init = x := le_antisymm (by omega) h1
    rw [this]
    exact hx
  · exact hmem

theorem regionsStep_foldl_split (g : List Hunk) : ∀ (ra rb : Region4),
    g.foldl regionsStep (ra, rb) =
      ((g.filter fun x => x.side == Side.a).foldl
          (fun r x => ⟨min x.sideRange.location r.r0, max (upperBound x.sideRange) r.r1,
            min x.oRange.location r.r2, max (upperBound x.oRange) r.r3⟩) ra,
        (g.filter fun x => x.side == Side.b).foldl
          (fun r x => ⟨min x.sideRange.location r.r0, max (upperBound x.sideRange) r.r1,
            min x.oRange.location r.r2, max (upperBound x.oRange) r.r3⟩) rb) := by
  induction g with
  | nil => intro ra rb; simp
  | cons h t ih =>
    intro ra rb
    rcases h with ⟨side, oR, sR⟩
    cases side
    · have hfa : ((Hunk.mk Side.a oR sR).side == Side.a) = true := rfl
      have hfb : ((Hunk.mk Side.a oR sR).side == Side.b) = false := rfl
      simp only [List.foldl_cons, List.filter_cons, hfa, hfb, if_true, if_false, regionsStep]
      rw [ih]
      simp
    · have hfa : ((Hunk.mk Side.b oR sR).side == Side.a) = false := rfl
      have hfb : ((Hunk.mk Side.b oR sR).side == Side.b) = true := rfl
      simp only [List.foldl_cons, List.filter_cons, hfa, hfb, if_true, if_false, regionsStep]
      rw [ih]
      simp

theorem foldl_region_char (l : List Hunk) : ∀ init : Region4,
    l.foldl
        (fun r x => (⟨min x.sideRange.location r.r0, max (upperBound x.sideRange) r.r1,
          min x.oRange.location r.r2, max (upperBound x.oRange) r.r3⟩ : Region4)) init =
      ⟨(l.map fun x => x.sideRange.location).foldl (fun acc v => min v acc) init.r0,
        (l.map fun x => upperBound x.sideRange).foldl (fun acc v => max v acc) init.r1,
        (l.map fun x => x.oRange.location).foldl (fun acc v => min v acc) init.r2,
        (l.map fun x => upperBound x.oRange).foldl (fun acc v => max v acc) init.r3⟩ := by
  induction l with
  | nil => intro init; simp
  | cons h t ih =>
    intro init
    simp only [List.foldl_cons, List.map_cons]
    rw [ih]

/-- **C4.** For a maximal group containing hunks from both sides, the
sweep emits exactly one conflict record: its `oRange` is the group's
base range, and its `aRange` (resp. `bRange`) runs from the tightest
lower bound of that side's hunks' side ranges, shifted by the distance
from the side's outermost base hunk start to the group's base start, to
the tightest upper bound, shifted by the distance from the side's
outermost base hunk end to the group's base end — the skew correction of
source lines 294-320. -/
theorem c4_conflict_group (oLen aLen bLen oOff aOff bOff : Int) (h : Hunk) (t : List Hunk)
    (gs : List (List Hunk))
    (hA : ∃ x ∈ h :: t, x.side = Side.a) (hB : ∃ x ∈ h :: t, x.side = Side.b)
    (hvalid : ∀ x ∈ h :: t, 0 ≤ x.oRange.location ∧ 0 ≤ x.oRange.length ∧
      0 ≤ x.sideRange.location ∧ 0 ≤ x.sideRange.length ∧ upperBound x.oRange ≤ oLen ∧
      upperBound x.sideRange ≤ (if x.side = Side.a then aLen else bLen)) :
    ∃ aMin aMax aOMin aOMax bMin bMax bOMin bOMax : Int,
      IsLeastOf aMin
        (((h :: t).filter fun x => x.side == Side.a).map fun x => x.sideRange.location) ∧
      IsGreatestOf aMax
        (((h :: t).filter fun x => x.side == Side.a).map fun x => upperBound x.sideRange) ∧
      IsLeastOf aOMin
        (((h :: t).filter fun x => x.side == Side.a).map fun x => x.oRange.location) ∧
      IsGreatestOf aOMax
        (((h :: t).filter fun x => x.side == Side.a).map fun x => upperBound x.oRange) ∧
      IsLeastOf bMin
        (((h :: t).filter fun x => x.side == Side.b).map fun x => x.sideRange.location) ∧
      IsGreatestOf bMax
        (((h :: t).filter fun x => x.side == Side.b).map fun x => upperBound x.sideRange) ∧
      IsLeastOf bOMin
        (((h :: t).filter fun x => x.side == Side.b).map fun x => x.oRange.location) ∧
      IsGreatestOf bOMax
        (((h :: t).filter fun x => x.side == Side.b).map fun x => upperBound x.oRange) ∧
      processGroups oLen aLen bLen oOff aOff bOff ((h :: t) :: gs) =
        (copyCommon h.oRange.location oOff aOff bOff).1 ++
          [Index.conflict
            (makeRange (aMin + (h.oRange.location - aOMin))
              ((aMax + (groupSpanEnd h t - aOMax)) - (aMin + (h.oRange.location - aOMin))))
            (makeRange h.oRange.location (groupSpanEnd h t - h.oRange.location))
            (makeRange (bMin + (h.oRange.location - bOMin))
              ((bMax + (groupSpanEnd h t - bOMax)) - (bMin + (h.oRange.location - bOMin))))] ++
          processGroups oLen aLen bLen (groupSpanEnd h t)
            (aMax + (groupSpanEnd h t - aOMax)) (bMax + (groupSpanEnd h t - bOMax)) gs := by
  have hne : t ≠ [] := by
    rintro rfl
    rcases hA with ⟨x, hx, hxa⟩
    rcases hB with ⟨y, hy, hyb⟩
    simp only [List.mem_singleton] at hx hy
    subst hx
    subst hy
    rw [hxa] at hyb
    exact Side.noConfusion hyb
  have hempty : t.isEmpty = false := by
    cases t with
    | nil => exact absurd rfl hne
    | cons u v => rfl
  refine ⟨_, _, _, _, _, _, _, _,
    foldl_min_isLeast _ aLen ?_, foldl_max_isGreatest _ (-1) ?_,
    foldl_min_isLeast _ oLen ?_, foldl_max_isGreatest _ (-1) ?_,
    foldl_min_isLeast _ bLen ?_, foldl_max_isGreatest _ (-1) ?_,
    foldl_min_isLeast _ oLen ?_, foldl_max_isGreatest _ (-1) ?_, ?_⟩
  case _ =>
    rcases hA with ⟨x, hx, hxa⟩
    refine ⟨x.sideRange.location, List.mem_map_of_mem _ (List.mem_filter.mpr ⟨hx, by simp [hxa]⟩), ?_⟩
    rcases hvalid x hx with ⟨_, _, _, h4, _, h6⟩
    rw [if_pos hxa] at h6
    simp only [upperBound] at h6
    omega
  case _ =>
    rcases hA with ⟨x, hx, hxa⟩
    refine ⟨upperBound x.sideRange, List.mem_map_of_mem _ (List.mem_filter.mpr ⟨hx, by simp [hxa]⟩), ?_⟩
    rcases hvalid x hx with ⟨_, _, h3, h4, _, _⟩
    simp only [upperBound]
    omega
  case _ =>
    rcases hA with ⟨x, hx, hxa⟩
    refine ⟨x.oRange.location, List.mem_map_of_mem _ (List.mem_filter.mpr ⟨hx, by simp [hxa]⟩), ?_⟩
    rcases hvalid x hx with ⟨_, h2, _, _, h5, _⟩
    simp only [upperBound] at h5
    omega
  case _ =>
    rcases hA with ⟨x, hx, hxa⟩
    refine ⟨upperBound x.oRange, List.mem_map_of_mem _ (List.mem_filter.mpr ⟨hx, by simp [hxa]⟩), ?_⟩
    rcases hvalid x hx with ⟨h1, h2, _, _, _, _⟩
    simp only [upperBound]
    omega
  case _ =>
    rcases hB with ⟨x, hx, hxb⟩
    refine ⟨x.sideRange.location, List.mem_map_of_mem _ (List.mem_filter.mpr ⟨hx, by simp [hxb]⟩), ?_⟩
    rcases hvalid x hx with ⟨_, _, _, h4, _, h6⟩
    rw [if_neg (by rw [hxb]; exact fun hc => Side.noConfusion hc)] at h6
    simp only [upperBound] at h6
    omega
  case _ =>
    rcases hB with ⟨x, hx, hxb⟩
    refine ⟨upperBound x.sideRange, List.mem_map_of_mem _ (List.mem_filter.mpr ⟨hx, by simp [hxb]⟩), ?_⟩
    rcases hvalid x hx with ⟨_, _, h3, h4, _, _⟩
    simp only [upperBound]
    omega
  case _ =>
    rcases hB with ⟨x, hx, hxb⟩
    refine ⟨x.oRange.location, List.mem_map_of_mem _ (List.mem_filter.mpr ⟨hx, by simp [hxb]⟩), ?_⟩
    rcases hvalid x hx with ⟨_, h2, _, _, h5, _⟩
    simp only [upperBound] at h5
    omega
  case _ =>
    rcases hB with ⟨x, hx, hxb⟩
    refine ⟨upperBound x.oRange, List.mem_map_of_mem _ (List.mem_filter.mpr ⟨hx, by simp [hxb]⟩), ?_⟩
    rcases hvalid x hx with ⟨h1, h2, _, _, _, _⟩
    simp only [upperBound]
    omega
  case _ =>
    simp only [processGroups, hempty, Bool.false_eq_true, if_false,
      regionsStep_foldl_split, foldl_region_char]

/-- Witness for C4: a two-sided group over `o` of length 3 (side a
rewrote `o[0,2)` as `a[0,1)`, side b rewrote `o[1,2)` as `b[1,2)`)
produces exactly one conflict with the skew-corrected ranges, followed by
the common suffix copy. -/
theorem c4_conflict_group_witness :
    processGroups 3 2 3 0 0 0
      [[Hunk.mk Side.a (makeRange 0 2) (makeRange 0 1),
        Hunk.mk Side.b (makeRange 1 1) (makeRange 1 1)]] =
      [Index.conflict (makeRange 0 1) (makeRange 0 2) (makeRange 0 2),
        Index.okA 1 1 (some 2) (some 2)] := by
  obtain ⟨aMin, aMax, aOMin, aOMax, bMin, bMax, bOMin, bOMax, k1, k2, k3, k4, k5, k6, k7, k8,
      heq⟩ :=
    c4_conflict_group 3 2 3 0 0 0 (Hunk.mk Side.a (makeRange 0 2) (makeRange 0 1))
      [Hunk.mk Side.b (makeRange 1 1) (makeRange 1 1)] [] (by decide) (by decide) (by decide)
  have e1 : aMin = 0 := by have h := k1.1; simp [makeRange] at h; exact h
  have e2 : aMax = 1 := by have h := k2.1; simp [makeRange, upperBound] at h; exact h
  have e3 : aOMin = 0 := by have h := k3.1; simp [makeRange] at h; exact h
  have e4 : aOMax = 2 := by have h := k4.1; simp [makeRange, upperBound] at h; exact h
  have e5 : bMin = 1 := by have h := k5.1; simp [makeRange] at h; exact h
  have e6 : bMax = 2 := by have h := k6.1; simp [makeRange, upperBound] at h; exact h
  have e7 : bOMin = 1 := by have h := k7.1; simp [makeRange] at h; exact h
  have e8 : bOMax = 2 := by have h := k8.1; simp [makeRange, upperBound] at h; exact h
  subst e1 e2 e3 e4 e5 e6 e7 e8
  rw [heq]
  decide

/-!
### C1: the output accounts for the base sequence exactly once
-/

theorem processChunks_flatten (oLen aLen bLen : Int) (gs : List (List Hunk)) :
    ∀ oOff aOff bOff,
    ((processChunks oLen aLen bLen oOff aOff bOff gs).map Chunk.recs).flatten =
      processGroups oLen aLen bLen oOff aOff bOff gs := by
  induction gs with
  | nil => intro oOff aOff bOff; simp [processChunks, processGroups]
  | cons g gs ih =>
    intro oOff aOff bOff
    cases g with
    | nil => simpa [processChunks, processGroups] using ih oOff aOff bOff
    | cons hunk tail =>
      by_cases htail : tail.isEmpty
      · simp only [processChunks, processGroups, if_pos htail, List.map_cons,
          List.flatten_cons, ih, List.append_assoc]
      · simp only [processChunks, processGroups, if_neg htail, List.map_cons,
          List.flatten_cons, ih, List.append_assoc]

theorem processChunks_tile (oLen aLen bLen : Int) (gs : List (List Hunk)) :
    ∀ oOff aOff bOff, GroupsTileable oLen oOff gs →
    ChunksTile oOff oLen (processChunks oLen aLen bLen oOff aOff bOff gs) := by
  induction gs with
  | nil =>
    intro oOff aOff bOff ht
    exact ⟨rfl, ht, rfl⟩
  | cons g gs ih =>
    intro oOff aOff bOff ht
    cases g with
    | nil => exact absurd ht (by simp [GroupsTileable])
    | cons hunk tail =>
      rcases ht with ⟨h1, h2, h3, h4⟩
      by_cases htail : tail.isEmpty
      · simp only [processChunks, if_pos htail]
        exact ⟨rfl, h1, rfl, h2, ih _ _ _ h4⟩
      · simp only [processChunks, if_neg htail]
        exact ⟨rfl, h1, rfl, h2, ih _ _ _ h4⟩

theorem processChunks_record_span (oLen aLen bLen : Int) (gs : List (List Hunk)) :
    ∀ oOff aOff bOff, ∀ c ∈ processChunks oLen aLen bLen oOff aOff bOff gs,
    ∀ r ∈ c.recs, RecordSpanOk c r := by
  induction gs with
  | nil =>
    intro oOff aOff bOff c hc r hr
    simp only [processChunks, List.mem_singleton] at hc
    subst hc
    simp only [copyCommon] at hr
    split at hr
    next => simp only [List.mem_singleton] at hr; subst hr; exact ⟨rfl, rfl⟩
    next => simp at hr
  | cons g gs ih =>
    intro oOff aOff bOff c hc r hr
    cases g with
    | nil => exact ih _ _ _ c hc r hr
    | cons hunk tail =>
      by_cases htail : tail.isEmpty
      · simp only [processChunks, if_pos htail, List.mem_cons] at hc
        rcases hc with rfl | rfl | hc
        · simp only [copyCommon] at hr
          split at hr
          next => simp only [List.mem_singleton] at hr; subst hr; exact ⟨rfl, rfl⟩
          next => simp at hr
        · simp only at hr
          split at hr
          · split at hr <;> simp only [List.mem_singleton] at hr <;> subst hr <;> trivial
          · simp at hr
        · exact ih _ _ _ c hc r hr
      · simp only [processChunks, if_neg htail, List.mem_cons] at hc
        rcases hc with rfl | rfl | hc
        · simp only [copyCommon] at hr
          split at hr
          next => simp only [List.mem_singleton] at hr; subst hr; exact ⟨rfl, rfl⟩
          next => simp at hr
        · simp only [List.mem_singleton] at hr
          subst hr
          exact rfl
        · exact ih _ _ _ c hc r hr

theorem foldl_max2_init_le (l : List Int) : ∀ init : Int, init ≤ l.foldl max init := by
  induction l with
  | nil => intro init; simp
  | cons x xs ih => intro init; exact le_trans (le_max_left _ _) (ih _)

theorem foldl_max2_le (l : List Int) : ∀ init bound : Int, init ≤ bound →
    (∀ x ∈ l, x ≤ bound) → l.foldl max init ≤ bound := by
  induction l with
  | nil => intro init bound h _; simpa using h
  | cons x xs ih =>
    intro init bound h hall
    simp only [List.foldl_cons]
    exact ih _ _ (max_le h (hall x (by simp))) fun y hy => hall y (by simp [hy])

theorem foldl_max2_mem_le (l : List Int) : ∀ init : Int, ∀ x ∈ l, x ≤ l.foldl max init := by
  induction l with
  | nil => intro init x hx; simp at hx
  | cons y ys ih =>
    intro init x hx
    rcases List.mem_cons.mp hx with rfl | hx
    · exact le_trans (le_max_right _ _) (foldl_max2_init_le ys _)
    · exact ih _ x hx

theorem groupSpanEnd_eq_foldl (h : Hunk) (t : List Hunk) :
    groupSpanEnd h t = (t.map fun x => upperBound x.oRange).foldl max (upperBound h.oRange) := by
  rw [groupSpanEnd, List.foldl_map]

theorem le_groupSpanEnd (h : Hunk) (t : List Hunk) :
    upperBound h.oRange ≤ groupSpanEnd h t := by
  rw [groupSpanEnd_eq_foldl]
  exact foldl_max2_init_le _ _

theorem mem_le_groupSpanEnd (h : Hunk) (t : List Hunk) (x : Hunk) (hx : x ∈ t) :
    upperBound x.oRange ≤ groupSpanEnd h t := by
  rw [groupSpanEnd_eq_foldl]
  exact foldl_max2_mem_le _ _ _ (List.mem_map_of_mem _ hx)

theorem groupSpanEnd_le (h : Hunk) (t : List Hunk) (bound : Int)
    (h1 : upperBound h.oRange ≤ bound) (h2 : ∀ x ∈ t, upperBound x.oRange ≤ bound) :
    groupSpanEnd h t ≤ bound := by
  rw [groupSpanEnd_eq_foldl]
  refine foldl_max2_le _ _ _ h1 ?_
  intro v hv
  rcases List.mem_map.mp hv with ⟨x, hx, rfl⟩
  exact h2 x hx

theorem collectGroup_fst_eq_groupSpanEnd (h : Hunk) (rest : List Hunk) :
    (collectGroup (upperBound h.oRange) rest).1 =
      groupSpanEnd h (collectGroup (upperBound h.oRange) rest).2.1 := by
  rw [collectGroup_fst_eq]
  rfl

theorem sweepGroups_tileable (oLen : Int) : ∀ (n : Nat) (l : List Hunk), l.length ≤ n →
    ∀ pos : Int,
    l.Pairwise (fun x y => x.oRange.location ≤ y.oRange.location) →
    (∀ h ∈ l, ORangeValid oLen h) →
    (∀ h ∈ l, pos ≤ h.oRange.location) → pos ≤ oLen →
    GroupsTileable oLen pos (sweepGroups l) := by
  intro n
  induction n with
  | zero =>
    intro l hl pos _ _ _ hpos
    rw [List.length_eq_zero.mp (Nat.le_zero.mp hl), sweepGroups_nil]
    exact hpos
  | succ n ih =>
    intro l hl pos hsort hvalid hge hpos
    cases l with
    | nil => rw [sweepGroups_nil]; exact hpos
    | cons h rest =>
      rw [sweepGroups_cons]
      have hdecomp := collectGroup_decomp rest (upperBound h.oRange)
      have hspan := collectGroup_fst_eq_groupSpanEnd h rest
      have hsortrest : rest.Pairwise (fun x y => x.oRange.location ≤ y.oRange.location) :=
        (List.pairwise_cons.mp hsort).2
      have hvalh := hvalid h (by simp)
      -- members of the consumed group and the remainder are members of rest
      have hmemg : ∀ x ∈ (collectGroup (upperBound h.oRange) rest).2.1, x ∈ rest := by
        intro x hx
        rw [← hdecomp]
        exact List.mem_append_left _ hx
      have hmemr : ∀ x ∈ (collectGroup (upperBound h.oRange) rest).2.2, x ∈ rest := by
        intro x hx
        rw [← hdecomp]
        exact List.mem_append_right _ hx
      have hse : upperBound h.oRange ≤ groupSpanEnd h (collectGroup (upperBound h.oRange) rest).2.1 :=
        le_groupSpanEnd _ _
      have hseLen : groupSpanEnd h (collectGroup (upperBound h.oRange) rest).2.1 ≤ oLen := by
        refine groupSpanEnd_le _ _ _ hvalh.2.2 ?_
        intro x hx
        exact (hvalid x (by simp [hmemg x hx])).2.2
      refine ⟨hge h (by simp), ?_, hseLen, ?_⟩
      · have : h.oRange.location ≤ upperBound h.oRange := by
          have := hvalh.2.1
          simp only [upperBound]
          omega
        exact le_trans this hse
      · -- recurse on the remainder, which starts strictly after the span end
        have hgt := collectGroup_rest_gt rest (upperBound h.oRange) hsortrest
        have hrest_sorted : (collectGroup (upperBound h.oRange) rest).2.2.Pairwise
            (fun x y => x.oRange.location ≤ y.oRange.location) := by
          have : (collectGroup (upperBound h.oRange) rest).2.2.Sublist rest := by
            conv_rhs => rw [← hdecomp]
            exact List.sublist_append_right _ _
          exact hsortrest.sublist this
        refine ih _ (le_trans (collectGroup_rest_length rest _) (by simpa using hl)) _
          hrest_sorted (fun x hx => hvalid x (by simp [hmemr x hx])) ?_ hseLen
        intro x hx
        have := hgt x hx
        rw [hspan] at this
        exact le_of_lt this

theorem diffAligned_pos_le (eq : α → α → Bool) (a b : List α) : ∀ (l : List DiffIndicesResult)
    (ai bi : Nat), DiffAligned eq a b ai bi l → ai ≤ a.length ∧ bi ≤ b.length := by
  intro l
  induction l with
  | nil => intro ai bi h; exact ⟨h.1, h.2.1⟩
  | cons x xs ih =>
    intro ai bi h
    rcases h with ⟨g, la, lb, _, _, _, _, _, _, hrest⟩
    have := ih _ _ hrest
    omega

/-- Every hunk of a contract-satisfying diff has non-negative ranges in
bounds on both sides. -/
theorem diffAligned_ranges_valid (eq : α → α → Bool) (a b : List α) :
    ∀ (l : List DiffIndicesResult) (ai bi : Nat), DiffAligned eq a b ai bi l →
    ∀ h ∈ l, 0 ≤ h.a.location ∧ 0 ≤ h.a.length ∧ upperBound h.a ≤ (a.length : Int) ∧
      0 ≤ h.b.location ∧ 0 ≤ h.b.length ∧ upperBound h.b ≤ (b.length : Int) := by
  intro l
  induction l with
  | nil => intro ai bi _ h hh; simp at hh
  | cons x xs ih =>
    intro ai bi hal h hh
    rcases hal with ⟨g, la, lb, hal1, hbl1, hal2, hbl2, _, _, hrest⟩
    rcases List.mem_cons.mp hh with rfl | hh
    · have hle := diffAligned_pos_le eq a b xs _ _ hrest
      refine ⟨by rw [hal1]; positivity, by rw [hal2]; positivity, ?_,
        by rw [hbl1]; positivity, by rw [hbl2]; positivity, ?_⟩
      · simp only [upperBound, hal1, hal2]
        omega
      · simp only [upperBound, hbl1, hbl2]
        omega
    · exact ih _ _ hrest h hh

theorem sortedHunks_sorted (m1 m2 : List DiffIndicesResult) :
    (sortedHunks m1 m2).Pairwise fun x y => x.oRange.location ≤ y.oRange.location := by
  haveI : IsTotal Hunk (fun x y => x.oRange.location ≤ y.oRange.location) :=
    ⟨fun x y => le_total _ _⟩
  haveI : IsTrans Hunk (fun x y => x.oRange.location ≤ y.oRange.location) :=
    ⟨fun _ _ _ => le_trans⟩
  exact List.sorted_insertionSort _ _

theorem sortedHunks_mem (m1 m2 : List DiffIndicesResult) :
    ∀ h ∈ sortedHunks m1 m2,
    (∃ r ∈ m1, h = ⟨.a, r.a, r.b⟩) ∨ (∃ r ∈ m2, h = ⟨.b, r.a, r.b⟩) := by
  intro h hh
  rw [sortedHunks] at hh
  rw [(List.perm_insertionSort _ _).mem_iff, List.mem_append] at hh
  rcases hh with hh | hh
  · rcases List.mem_map.mp hh with ⟨r, hr, rfl⟩
    exact Or.inl ⟨r, hr, rfl⟩
  · rcases List.mem_map.mp hh with ⟨r, hr, rfl⟩
    exact Or.inr ⟨r, hr, rfl⟩

/-- Validity of the merged, sorted hunks fed to the group sweep, as
provided by the modelled differ. -/
theorem sortedHunks_valid [DecidableEq α] (o x y : List α) :
    ∀ h ∈ sortedHunks (diffIndices o x) (diffIndices o y),
    ORangeValid (o.length : Int) h := by
  intro h hh
  rcases sortedHunks_mem _ _ h hh with ⟨r, hr, rfl⟩ | ⟨r, hr, rfl⟩
  · have hval := diffAligned_ranges_valid _ o x _ 0 0
      (diffIndicesArray_aligned (fun u v => decide (u = v)) o x) r hr
    exact ⟨hval.1, hval.2.1, hval.2.2.1⟩
  · have hval := diffAligned_ranges_valid _ o y _ 0 0
      (diffIndicesArray_aligned (fun u v => decide (u = v)) o y) r hr
    exact ⟨hval.1, hval.2.1, hval.2.2.1⟩

/-- **C1.** The list returned by `diff3MergeIndices(o, a, b)` accounts
for the base sequence exactly once: the annotated segments of the sweep
carry base spans that start at 0, are in increasing order, non-negative,
adjacent — hence pairwise non-overlapping, gap-free, and summing to
`o.length` — and the records are exactly the concatenation of the
segments' records, with each conflict's `oRange` and each common-region
`okA`'s implied base span equal to its segment's span (one-sided okA/okB
groups' consumed spans, possibly empty only for pure insertions, are the
remaining segments). -/
theorem c1_base_coverage [DecidableEq α] (o a b : List α) :
    diff3MergeIndices o a b = ((diff3MergeChunks o a b).map Chunk.recs).flatten ∧
    ChunksTile 0 (o.length : Int) (diff3MergeChunks o a b) ∧
    ∀ c ∈ diff3MergeChunks o a b, ∀ r ∈ c.recs, RecordSpanOk c r := by
  refine ⟨?_, ?_, ?_⟩
  · rw [diff3MergeIndices, mergeIndicesFromDiffs, diff3MergeChunks, processChunks_flatten]
  · rw [diff3MergeChunks]
    refine processChunks_tile _ _ _ _ _ _ _ ?_
    refine sweepGroups_tileable _ _ _ le_rfl 0 (sortedHunks_sorted _ _)
      (sortedHunks_valid o a b) ?_ (by positivity)
    intro h hh
    exact (sortedHunks_valid o a b h hh).1
  · intro c hc
    rw [diff3MergeChunks] at hc
    exact processChunks_record_span _ _ _ _ _ _ _ c hc

/-- Witness for C1 at `o = [1,2,3]`, `a = [2,3]`, `b = [1,2,4,3]`. -/
theorem c1_base_coverage_witness :
    diff3MergeIndices [1, 2, 3] [2, 3] [1, 2, 4, 3] =
      ((diff3MergeChunks [1, 2, 3] [2, 3] [1, 2, 4, 3]).map Chunk.recs).flatten ∧
    ChunksTile 0 3 (diff3MergeChunks [1, 2, 3] [2, 3] [1, 2, 4, 3]) :=
  ⟨(c1_base_coverage [1, 2, 3] [2, 3] [1, 2, 4, 3]).1,
    (c1_base_coverage [1, 2, 3] [2, 3] [1, 2, 4, 3]).2.1⟩

/-!
### C2: conflicts are emitted exactly for the two-sided maximal groups
-/

theorem perm_sorted_key_eq (key : α → Int) : ∀ (l1 l2 : List α), l1.Perm l2 →
    l1.Pairwise (fun x y => key x ≤ key y) → l2.Pairwise (fun x y => key x < key y) →
    l1 = l2 := by
  intro l1
  induction l1 with
  | nil =>
    intro l2 hp _ _
    exact (List.perm_nil.mp hp.symm).symm
  | cons h1 t1 ih =>
    intro l2 hp hs1 hs2
    cases l2 with
    | nil => exact List.perm_nil.mp hp
    | cons h2 t2 =>
      have hmem1 : h1 ∈ h2 :: t2 := hp.mem_iff.mp (by simp)
      have hmem2 : h2 ∈ h1 :: t1 := hp.mem_iff.mpr (by simp)
      have hle : key h1 ≤ key h2 := by
        rcases List.mem_cons.mp hmem2 with heq | hmem
        · rw [heq]
        · exact (List.pairwise_cons.mp hs1).1 h2 hmem
      have heq : h1 = h2 := by
        rcases List.mem_cons.mp hmem1 with heq | hmem
        · exact heq
        · have := (List.pairwise_cons.mp hs2).1 h1 hmem
          omega
      subst heq
      rw [ih t2 hp.cons_inv (List.pairwise_cons.mp hs1).2 (List.pairwise_cons.mp hs2).2]

theorem separated_le_loc : ∀ (l : List Hunk) (pos : Int), SeparatedHunks pos l →
    (∀ h ∈ l, 0 ≤ h.oRange.length) → ∀ h ∈ l, pos ≤ h.oRange.location := by
  intro l
  induction l with
  | nil => intro pos _ _ h hh; simp at hh
  | cons h t ih =>
    intro pos hsep hlen x hx
    rcases hsep with ⟨hp, hrest⟩
    rcases List.mem_cons.mp hx with rfl | hx
    · exact hp
    · have hrec := ih _ hrest (fun y hy => hlen y (by simp [hy])) x hx
      have hl := hlen h (by simp)
      simp only [upperBound] at hrec
      omega

theorem separated_pairwise : ∀ (l : List Hunk) (pos : Int), SeparatedHunks pos l →
    (∀ h ∈ l, 0 ≤ h.oRange.length) →
    l.Pairwise fun x y => upperBound x.oRange < y.oRange.location := by
  intro l
  induction l with
  | nil => intro pos _ _; exact List.Pairwise.nil
  | cons h t ih =>
    intro pos hsep hlen
    rcases hsep with ⟨hp, hrest⟩
    refine List.pairwise_cons.mpr ⟨?_, ih _ hrest fun y hy => hlen y (by simp [hy])⟩
    intro y hy
    have := separated_le_loc t _ hrest (fun z hz => hlen z (by simp [hz])) y hy
    omega

theorem filter_side_a_eq (m1 m2 : List DiffIndicesResult) :
    (hunksOf .a m1 ++ hunksOf .b m2).filter (fun h => h.side == Side.a) = hunksOf .a m1 := by
  rw [List.filter_append]
  have h1 : (hunksOf .a m1).filter (fun h => h.side == Side.a) = hunksOf .a m1 := by
    refine List.filter_eq_self.mpr ?_
    intro x hx
    rcases List.mem_map.mp hx with ⟨r, _, rfl⟩
    rfl
  have h2 : (hunksOf .b m2).filter (fun h => h.side == Side.a) = [] := by
    refine List.filter_eq_nil_iff.mpr ?_
    intro x hx
    rcases List.mem_map.mp hx with ⟨r, _, rfl⟩
    simp
  rw [h1, h2, List.append_nil]

theorem filter_side_b_eq (m1 m2 : List DiffIndicesResult) :
    (hunksOf .a m1 ++ hunksOf .b m2).filter (fun h => h.side == Side.b) = hunksOf .b m2 := by
  rw [List.filter_append]
  have h1 : (hunksOf .a m1).filter (fun h => h.side == Side.b) = [] := by
    refine List.filter_eq_nil_iff.mpr ?_
    intro x hx
    rcases List.mem_map.mp hx with ⟨r, _, rfl⟩
    simp
  have h2 : (hunksOf .b m2).filter (fun h => h.side == Side.b) = hunksOf .b m2 := by
    refine List.filter_eq_self.mpr ?_
    intro x hx
    rcases List.mem_map.mp hx with ⟨r, _, rfl⟩
    rfl
  rw [h1, h2, List.nil_append]

theorem sortedHunks_perm (m1 m2 : List DiffIndicesResult) :
    (sortedHunks m1 m2).Perm (hunksOf .a m1 ++ hunksOf .b m2) := by
  rw [sortedHunks]
  exact List.perm_insertionSort _ _

theorem sortedHunks_filter_a (m1 m2 : List DiffIndicesResult)
    (hstrict : (hunksOf .a m1).Pairwise fun x y => x.oRange.location < y.oRange.location) :
    (sortedHunks m1 m2).filter (fun h => h.side == Side.a) = hunksOf .a m1 := by
  refine perm_sorted_key_eq (fun h : Hunk => h.oRange.location) _ _ ?_ ?_ hstrict
  · have := (sortedHunks_perm m1 m2).filter (fun h => h.side == Side.a)
    rwa [filter_side_a_eq] at this
  · exact List.Pairwise.sublist (List.filter_sublist _) (sortedHunks_sorted m1 m2)

theorem sortedHunks_filter_b (m1 m2 : List DiffIndicesResult)
    (hstrict : (hunksOf .b m2).Pairwise fun x y => x.oRange.location < y.oRange.location) :
    (sortedHunks m1 m2).filter (fun h => h.side == Side.b) = hunksOf .b m2 := by
  refine perm_sorted_key_eq (fun h : Hunk => h.oRange.location) _ _ ?_ ?_ hstrict
  · have := (sortedHunks_perm m1 m2).filter (fun h => h.side == Side.b)
    rwa [filter_side_b_eq] at this
  · exact List.Pairwise.sublist (List.filter_sublist _) (sortedHunks_sorted m1 m2)

/-- Transfer the per-side separation of the two diffs to a conditional
pairwise property of the merged sorted hunk list: two hunks of the same
side never touch. -/
theorem sortedHunks_side_separated (m1 m2 : List DiffIndicesResult)
    (ha : ((sortedHunks m1 m2).filter fun h => h.side == Side.a).Pairwise
      fun x y => upperBound x.oRange < y.oRange.location)
    (hb : ((sortedHunks m1 m2).filter fun h => h.side == Side.b).Pairwise
      fun x y => upperBound x.oRange < y.oRange.location) :
    (sortedHunks m1 m2).Pairwise
      fun x y => x.side = y.side → upperBound x.oRange < y.oRange.location := by
  have hfa : (fun (h : Hunk) => h.side == Side.a) = fun h => decide (h.side = Side.a) := rfl
  have hfb : (fun (h : Hunk) => h.side == Side.b) = fun h => decide (h.side = Side.b) := rfl
  rw [hfa, List.pairwise_filter] at ha
  rw [hfb, List.pairwise_filter] at hb
  have := ha.and hb
  refine this.imp ?_
  rintro x y ⟨hxa, hxb⟩ hside
  cases hx : x.side
  · exact hxa hx (by rw [← hside, hx])
  · exact hxb hx (by rw [← hside, hx])

/-- A group of at least two hunks found by the sweep contains hunks from
both sides: the second consumed hunk touches the first hunk's base
range, which same-side separation forbids. -/
theorem sweepGroups_wf : ∀ (n : Nat) (l : List Hunk), l.length ≤ n →
    l.Pairwise (fun x y => x.side = y.side → upperBound x.oRange < y.oRange.location) →
    ∀ g ∈ sweepGroups l, g ≠ [] ∧ (2 ≤ g.length → groupHasBoth g = true) := by
  intro n
  induction n with
  | zero =>
    intro l hl _ g hg
    rw [List.length_eq_zero.mp (Nat.le_zero.mp hl), sweepGroups_nil] at hg
    simp at hg
  | succ n ih =>
    intro l hl hsep g hg
    cases l with
    | nil => rw [sweepGroups_nil] at hg; simp at hg
    | cons h rest =>
      rw [sweepGroups_cons, List.mem_cons] at hg
      rcases hg with rfl | hg
      · refine ⟨by simp, ?_⟩
        intro h2
        cases hr : rest with
        | nil =>
          subst hr
          simp [collectGroup] at h2
        | cons x rest2 =>
          subst hr
          simp only [collectGroup] at h2 ⊢
          by_cases hgt : x.oRange.location > upperBound h.oRange
          · rw [if_pos hgt] at h2
            simp at h2
          · rw [if_neg hgt]
            have hdiff : h.side ≠ x.side := by
              intro hss
              have := (List.pairwise_cons.mp hsep).1 x (by simp) hss
              omega
            cases hxs : h.side <;> cases hys : x.side <;>
              first
              | exact absurd (hxs.trans hys.symm) hdiff
              | simp [groupHasBoth, hxs, hys]
      · have hsub : (collectGroup (upperBound h.oRange) rest).2.2.Sublist (h :: rest) := by
          refine List.Sublist.trans ?_ (List.sublist_cons_self _ _)
          conv_rhs => rw [← collectGroup_decomp rest (upperBound h.oRange)]
          exact List.sublist_append_right _ _
        refine ih _ ?_ (hsep.sublist hsub) g hg
        exact le_trans (collectGroup_rest_length rest _) (by simpa using hl)

theorem conflictORanges_append (l1 l2 : List Index) :
    conflictORanges (l1 ++ l2) = conflictORanges l1 ++ conflictORanges l2 :=
  List.filterMap_append _ _ _

theorem conflictORanges_copyCommon (t oOff aOff bOff : Int) :
    conflictORanges (copyCommon t oOff aOff bOff).1 = [] := by
  simp only [copyCommon]
  split <;> simp [conflictORanges]

theorem processGroups_conflicts (oLen aLen bLen : Int) : ∀ (gs : List (List Hunk)),
    (∀ g ∈ gs, g ≠ [] ∧ (2 ≤ g.length → groupHasBoth g = true)) →
    ∀ oOff aOff bOff,
    conflictORanges (processGroups oLen aLen bLen oOff aOff bOff gs) =
      (gs.filter groupHasBoth).map groupRange := by
  intro gs
  induction gs with
  | nil =>
    intro _ oOff aOff bOff
    simp only [processGroups, List.filter_nil, List.map_nil]
    exact conflictORanges_copyCommon _ _ _ _
  | cons g gs ih =>
    intro hgs oOff aOff bOff
    cases g with
    | nil => exact absurd rfl (hgs [] (by simp)).1
    | cons hunk tail =>
      by_cases htail : tail.isEmpty
      · have htl : tail = [] := List.isEmpty_iff.mp htail
        subst htl
        have hsingle : groupHasBoth [hunk] = false := by
          cases hs : hunk.side <;> simp [groupHasBoth, hs]
        simp only [processGroups, if_pos (by rfl : ([] : List Hunk).isEmpty = true),
          conflictORanges_append, conflictORanges_copyCommon, List.nil_append]
        have hrecs : conflictORanges
            (if hunk.sideRange.length > 0 then
              (match hunk.side with
                | Side.a => [Index.okA hunk.sideRange.length hunk.sideRange.location none none]
                | Side.b => [Index.okB hunk.sideRange.length none none hunk.sideRange.location])
              else []) = [] := by
          split
          · cases hunk.side <;> simp [conflictORanges]
          · simp [conflictORanges]
        rw [hrecs, List.nil_append, List.filter_cons, hsingle]
        simp only [Bool.false_eq_true, if_false]
        exact ih (fun g hg => hgs g (by simp [hg])) _ _ _
      · have hboth : groupHasBoth (hunk :: tail) = true := by
          refine (hgs (hunk :: tail) (by simp)).2 ?_
          cases tail with
          | nil => simp at htail
          | cons u v => simp
        simp only [processGroups, if_neg htail, conflictORanges_append,
          conflictORanges_copyCommon, List.nil_append]
        have hconf : conflictORanges [Index.conflict
            (makeRange ((((hunk :: tail).foldl regionsStep
              (⟨aLen, -1, oLen, -1⟩, ⟨bLen, -1, oLen, -1⟩)).1.r0 +
                (hunk.oRange.location - ((hunk :: tail).foldl regionsStep
                  (⟨aLen, -1, oLen, -1⟩, ⟨bLen, -1, oLen, -1⟩)).1.r2)))
              ((((hunk :: tail).foldl regionsStep
                (⟨aLen, -1, oLen, -1⟩, ⟨bLen, -1, oLen, -1⟩)).1.r1 +
                (groupSpanEnd hunk tail - ((hunk :: tail).foldl regionsStep
                  (⟨aLen, -1, oLen, -1⟩, ⟨bLen, -1, oLen, -1⟩)).1.r3)) -
                (((hunk :: tail).foldl regionsStep
                  (⟨aLen, -1, oLen, -1⟩, ⟨bLen, -1, oLen, -1⟩)).1.r0 +
                  (hunk.oRange.location - ((hunk :: tail).foldl regionsStep
                    (⟨aLen, -1, oLen, -1⟩, ⟨bLen, -1, oLen, -1⟩)).1.r2))))
            (makeRange hunk.oRange.location (groupSpanEnd hunk tail - hunk.oRange.location))
            (makeRange ((((hunk :: tail).foldl regionsStep
              (⟨aLen, -1, oLen, -1⟩, ⟨bLen, -1, oLen, -1⟩)).2.r0 +
                (hunk.oRange.location - ((hunk :: tail).foldl regionsStep
                  (⟨aLen, -1, oLen, -1⟩, ⟨bLen, -1, oLen, -1⟩)).2.r2)))
              ((((hunk :: tail).foldl regionsStep
                (⟨aLen, -1, oLen, -1⟩, ⟨bLen, -1, oLen, -1⟩)).2.r1 +
                (groupSpanEnd hunk tail - ((hunk :: tail).foldl regionsStep
                  (⟨aLen, -1, oLen, -1⟩, ⟨bLen, -1, oLen, -1⟩)).2.r3)) -
                (((hunk :: tail).foldl regionsStep
                  (⟨aLen, -1, oLen, -1⟩, ⟨bLen, -1, oLen, -1⟩)).2.r0 +
                  (hunk.oRange.location - ((hunk :: tail).foldl regionsStep
                    (⟨aLen, -1, oLen, -1⟩, ⟨bLen, -1, oLen, -1⟩)).2.r2))))] =
            [makeRange hunk.oRange.location (groupSpanEnd hunk tail - hunk.oRange.location)] := rfl
        rw [hconf, List.filter_cons, hboth]
        simp only [if_true, List.map_cons, groupRange]
        rw [ih (fun g hg => hgs g (by simp [hg])) _ _ _]
        rfl

/-- **C2.** Under the diff contract — each side's hunks separated by at
least one unchanged base element, with non-negative base lengths — the
sweep over the sorted hunks partitions them into maximal touching groups
(extending while the next start is `≤` the group end, zero-length hunks
touching included), and a conflict record is emitted exactly for the
maximal groups containing hunks from both sides: the conflict `oRange`s
of the output are, in order, precisely the spans of the two-sided
groups. -/
theorem c2_conflicts_exactly_two_sided_groups (oLen aLen bLen : Int)
    (m1 m2 : List DiffIndicesResult)
    (hsep1 : SeparatedHunks 0 (hunksOf .a m1))
    (hlen1 : ∀ h ∈ hunksOf .a m1, 0 ≤ h.oRange.length)
    (hsep2 : SeparatedHunks 0 (hunksOf .b m2))
    (hlen2 : ∀ h ∈ hunksOf .b m2, 0 ≤ h.oRange.length) :
    (sweepGroups (sortedHunks m1 m2)).flatten = sortedHunks m1 m2 ∧
    conflictORanges (mergeIndicesFromDiffs oLen aLen bLen m1 m2) =
      ((sweepGroups (sortedHunks m1 m2)).filter groupHasBoth).map groupRange := by
  refine ⟨sweepGroups_flatten _, ?_⟩
  have hpa := separated_pairwise _ _ hsep1 hlen1
  have hpb := separated_pairwise _ _ hsep2 hlen2
  have hstricta : (hunksOf .a m1).Pairwise
      fun x y => x.oRange.location < y.oRange.location := by
    refine hpa.imp_of_mem ?_
    intro x y hx _ hr
    have := hlen1 x hx
    simp only [upperBound] at hr
    omega
  have hstrictb : (hunksOf .b m2).Pairwise
      fun x y => x.oRange.location < y.oRange.location := by
    refine hpb.imp_of_mem ?_
    intro x y hx _ hr
    have := hlen2 x hx
    simp only [upperBound] at hr
    omega
  have hfa := sortedHunks_filter_a m1 m2 hstricta
  have hfb := sortedHunks_filter_b m1 m2 hstrictb
  have hcond := sortedHunks_side_separated m1 m2 (by rw [hfa]; exact hpa)
    (by rw [hfb]; exact hpb)
  have hwf := sweepGroups_wf (sortedHunks m1 m2).length _ le_rfl hcond
  rw [mergeIndicesFromDiffs]
  exact processGroups_conflicts _ _ _ _ hwf _ _ _

/-- Witness for C2: a one-hunk diff on each side whose base ranges
touch; the single two-sided group yields the single conflict span. -/
theorem c2_conflicts_exactly_two_sided_groups_witness :
    conflictORanges (mergeIndicesFromDiffs 3 2 3
      [⟨makeRange 0 1, makeRange 0 0⟩] [⟨makeRange 0 2, makeRange 0 1⟩]) =
      ((sweepGroups (sortedHunks [⟨makeRange 0 1, makeRange 0 0⟩]
        [⟨makeRange 0 2, makeRange 0 1⟩])).filter groupHasBoth).map groupRange :=
  (c2_conflicts_exactly_two_sided_groups 3 2 3
    [⟨makeRange 0 1, makeRange 0 0⟩] [⟨makeRange 0 2, makeRange 0 1⟩]
    ⟨by norm_num [makeRange], trivial⟩ (by decide)
    ⟨by norm_num [makeRange], trivial⟩ (by decide)).2

/-!
### C7: all emitted ranges are non-negative
-/

theorem aligned_append_left (oLen xLen : Int) : ∀ (l1 l2 : List Hunk) (p q : Int),
    AlignedHunks oLen xLen p q (l1 ++ l2) → AlignedHunks oLen xLen p q l1 := by
  intro l1
  induction l1 with
  | nil => intro l2 p q _; trivial
  | cons x t ih =>
    intro l2 p q hal
    rcases hal with ⟨h1, h2, h3, h4, h5, h6, hrest⟩
    exact ⟨h1, h2, h3, h4, h5, h6, ih l2 _ _ hrest⟩

theorem aligned_append_right (oLen xLen : Int) : ∀ (l1 l2 : List Hunk) (p q : Int),
    AlignedHunks oLen xLen p q (l1 ++ l2) →
    AlignedHunks oLen xLen (chainEndO p l1) (chainEndX q l1) l2 := by
  intro l1
  induction l1 with
  | nil => intro l2 p q hal; exact hal
  | cons x t ih =>
    intro l2 p q hal
    rcases hal with ⟨_, _, _, _, _, _, hrest⟩
    exact ih l2 _ _ hrest

theorem aligned_member_valid (oLen xLen : Int) : ∀ (l : List Hunk) (p q : Int),
    AlignedHunks oLen xLen p q l → 0 ≤ p → 0 ≤ q →
    ∀ x ∈ l, 0 ≤ x.oRange.location ∧ 0 ≤ x.oRange.length ∧ upperBound x.oRange ≤ oLen ∧
      0 ≤ x.sideRange.location ∧ 0 ≤ x.sideRange.length ∧ upperBound x.sideRange ≤ xLen := by
  intro l
  induction l with
  | nil => intro p q _ _ _ x hx; simp at hx
  | cons h t ih =>
    intro p q hal hp hq x hx
    rcases hal with ⟨h1, h2, h3, h4, h5, h6, hrest⟩
    rcases List.mem_cons.mp hx with rfl | hx
    · refine ⟨by omega, h3, h5, by omega, h4, h6⟩
    · refine ih _ _ hrest ?_ ?_ x hx
      · simp only [upperBound]
        omega
      · simp only [upperBound]
        omega

theorem aligned_head_least (oLen xLen : Int) : ∀ (l : List Hunk) (h : Hunk) (p q : Int),
    AlignedHunks oLen xLen p q (h :: l) →
    ∀ y ∈ h :: l, h.oRange.location ≤ y.oRange.location ∧
      h.sideRange.location ≤ y.sideRange.location := by
  intro l
  induction l with
  | nil =>
    intro h p q _ y hy
    simp only [List.mem_singleton] at hy
    subst hy
    exact ⟨le_rfl, le_rfl⟩
  | cons x t ih =>
    intro h p q hal y hy
    rcases List.mem_cons.mp hy with rfl | hy
    · exact ⟨le_rfl, le_rfl⟩
    · rcases hal with ⟨h1, h2, h3, h4, h5, h6, hrest⟩
      have hnext := ih x _ _ hrest y hy
      have hx1 : h.oRange.location ≤ x.oRange.location := by
        rcases hrest with ⟨g1, _⟩
        simp only [upperBound] at g1
        omega
      have hx2 : h.sideRange.location ≤ x.sideRange.location := by
        rcases hrest with ⟨g1, g2, _⟩
        simp only [upperBound] at g1 g2
        omega
      exact ⟨le_trans hx1 hnext.1, le_trans hx2 hnext.2⟩

theorem aligned_chainEnd_greatest (oLen xLen : Int) : ∀ (l : List Hunk) (p q : Int),
    AlignedHunks oLen xLen p q l →
    ∀ y ∈ l, upperBound y.oRange ≤ chainEndO p l ∧ upperBound y.sideRange ≤ chainEndX q l := by
  intro l
  induction l with
  | nil => intro p q _ y hy; simp at hy
  | cons h t ih =>
    intro p q hal y hy
    rcases hal with ⟨h1, h2, h3, h4, h5, h6, hrest⟩
    have hmono : ∀ (pp : Int) (ll : List Hunk) (qq : Int), AlignedHunks oLen xLen pp qq ll →
        pp ≤ chainEndO pp ll ∧ qq ≤ chainEndX qq ll := by
      intro pp ll
      induction ll generalizing pp with
      | nil => intro qq _; exact ⟨le_rfl, le_rfl⟩
      | cons z zs ihz =>
        intro qq hz
        rcases hz with ⟨z1, z2, z3, z4, z5, z6, hzr⟩
        have := ihz _ _ hzr
        simp only [chainEndO, chainEndX]
        constructor
        · refine le_trans ?_ this.1
          simp only [upperBound]
          omega
        · refine le_trans ?_ this.2
          have : 0 ≤ z.oRange.location - pp := by omega
          simp only [upperBound]
          omega
    rcases List.mem_cons.mp hy with rfl | hy
    · simp only [chainEndO, chainEndX]
      exact hmono _ _ _ hrest
    · simp only [chainEndO, chainEndX]
      exact ih _ _ hrest y hy

theorem chainEndO_last : ∀ (l : List Hunk) (h : Hunk) (p : Int),
    chainEndO p (l ++ [h]) = upperBound h.oRange := by
  intro l
  induction l with
  | nil => intro h p; rfl
  | cons x t ih => intro h p; exact ih h _

theorem chainEndX_last : ∀ (l : List Hunk) (h : Hunk) (p : Int),
    chainEndX p (l ++ [h]) = upperBound h.sideRange := by
  intro l
  induction l with
  | nil => intro h p; rfl
  | cons x t ih => intro h p; exact ih h _

theorem chainEnd_mem : ∀ (l : List Hunk) (p q : Int), l ≠ [] →
    ∃ y ∈ l, upperBound y.oRange = chainEndO p l ∧ upperBound y.sideRange = chainEndX q l := by
  intro l p q hne
  rcases List.eq_nil_or_concat l with rfl | ⟨t, h, rfl⟩
  · exact absurd rfl hne
  · simp only [List.concat_eq_append]
    exact ⟨h, by simp, (chainEndO_last t h p).symm, (chainEndX_last t h q).symm⟩

theorem aligned_realign (oLen xLen : Int) : ∀ (l : List Hunk) (p q pn qn : Int),
    AlignedHunks oLen xLen p q l → qn - pn = q - p →
    (∀ y ∈ l, pn ≤ y.oRange.location) → AlignedHunks oLen xLen pn qn l := by
  intro l p q pn qn hal hdrift hle
  cases l with
  | nil => trivial
  | cons h t =>
    rcases hal with ⟨h1, h2, h3, h4, h5, h6, hrest⟩
    exact ⟨hle h (by simp), by omega, h3, h4, h5, h6, hrest⟩

theorem isLeast_unique (m m' : Int) (l : List Int) (h1 : IsLeastOf m l) (h2 : IsLeastOf m' l) :
    m = m' :=
  le_antisymm (h1.2 m' h2.1) (h2.2 m h1.1)

theorem isGreatest_unique (m m' : Int) (l : List Int)
    (h1 : IsGreatestOf m l) (h2 : IsGreatestOf m' l) : m = m' :=
  le_antisymm (h2.2 m h1.1) (h1.2 m' h2.1)

theorem copyCommon_spec (t oOff aOff bOff : Int) (h : oOff ≤ t) :
    (copyCommon t oOff aOff bOff).2.1 = t ∧
    (copyCommon t oOff aOff bOff).2.2.1 = aOff + (t - oOff) ∧
    (copyCommon t oOff aOff bOff).2.2.2 = bOff + (t - oOff) ∧
    ∀ r ∈ (copyCommon t oOff aOff bOff).1, RangesNonneg r := by
  simp only [copyCommon]
  split
  next hpos =>
    refine ⟨by dsimp only; omega, by dsimp only, by dsimp only, ?_⟩
    intro r hr
    simp only [List.mem_singleton] at hr
    subst hr
    simp only [RangesNonneg]
    omega
  next hpos =>
    refine ⟨by dsimp only; omega, by dsimp only; omega, by dsimp only; omega, ?_⟩
    intro r hr
    simp at hr

theorem filter_ne_nil_of_any (l : List Hunk) (s : Side)
    (h : l.any (fun x => x.side == s) = true) : l.filter (fun x => x.side == s) ≠ [] := by
  rcases List.any_eq_true.mp h with ⟨x, hx, hs⟩
  intro hnil
  have : x ∈ l.filter (fun x => x.side == s) := List.mem_filter.mpr ⟨hx, hs⟩
  rw [hnil] at this
  simp at this

theorem group_upper_le_span (h : Hunk) (t : List Hunk) :
    ∀ x ∈ h :: t, upperBound x.oRange ≤ groupSpanEnd h t := by
  intro x hx
  rcases List.mem_cons.mp hx with rfl | hx
  · exact le_groupSpanEnd _ _
  · exact mem_le_groupSpanEnd _ _ _ hx

/-- The non-negativity invariant carried through the sweep: given sorted
well-formed groups whose per-side hunks form chains aligned with the
current offsets, every record the sweep emits has non-negative ranges
(ok records have positive length). -/
theorem processGroups_nonneg (oLen aLen bLen : Int) : ∀ (gs : List (List Hunk))
    (oOff aOff bOff : Int),
    GroupsTileable oLen oOff gs →
    (gs.flatten).Pairwise (fun x y => x.oRange.location ≤ y.oRange.location) →
    (∀ g ∈ gs, g ≠ [] ∧ (2 ≤ g.length → groupHasBoth g = true)) →
    AlignedHunks oLen aLen oOff aOff ((gs.flatten).filter fun x => x.side == Side.a) →
    AlignedHunks oLen bLen oOff bOff ((gs.flatten).filter fun x => x.side == Side.b) →
    0 ≤ oOff → 0 ≤ aOff → 0 ≤ bOff →
    ∀ r ∈ processGroups oLen aLen bLen oOff aOff bOff gs, RangesNonneg r := by
  intro gs
  induction gs with
  | nil =>
    intro oOff aOff bOff htile _ _ _ _ ho _ _ r hr
    exact (copyCommon_spec oLen oOff aOff bOff htile).2.2.2 r hr
  | cons g gs ih =>
    intro oOff aOff bOff htile hsort hwf hAa hAb ho ha hb r hr
    cases g with
    | nil => exact absurd rfl (hwf [] (by simp)).1
    | cons h t =>
      rcases htile with ⟨t1, t2, t3, t4⟩
      have hflat : ((h :: t) :: gs).flatten = (h :: t) ++ gs.flatten := rfl
      rw [hflat] at hsort hAa hAb
      have hpw := List.pairwise_append.mp hsort
      have pw_group := hpw.1
      have pw_rest := hpw.2.1
      -- every hunk of the remaining groups starts at or after the span end
      have hrest_bound : ∀ y ∈ gs.flatten, groupSpanEnd h t ≤ y.oRange.location := by
        cases gs with
        | nil => intro y hy; simp at hy
        | cons g2 gs2 =>
          obtain ⟨h2, u2, rfl⟩ : ∃ h2 u2, g2 = h2 :: u2 := by
            cases g2 with
            | nil => exact absurd rfl (hwf [] (by simp)).1
            | cons a2 b2 => exact ⟨a2, b2, rfl⟩
          have u1 : groupSpanEnd h t ≤ h2.oRange.location := t4.1
          have hflat2 : ((h2 :: u2) :: gs2).flatten = (h2 :: u2) ++ gs2.flatten := rfl
          rw [hflat2] at pw_rest ⊢
          have hpw2 := List.pairwise_append.mp pw_rest
          intro y hy
          rcases List.mem_append.mp hy with hy | hy
          · rcases List.mem_cons.mp hy with rfl | hy
            · exact u1
            · exact le_trans u1 ((List.pairwise_cons.mp hpw2.1).1 y hy)
          · exact le_trans u1 (hpw2.2.2 h2 (by simp) y hy)
      rw [List.filter_append] at hAa hAb
      -- validity of the group members, per side
      have hvalid_mem : ∀ x ∈ h :: t,
          0 ≤ x.oRange.location ∧ 0 ≤ x.oRange.length ∧ upperBound x.oRange ≤ oLen ∧
          0 ≤ x.sideRange.location ∧ 0 ≤ x.sideRange.length ∧
          upperBound x.sideRange ≤ (if x.side = Side.a then aLen else bLen) := by
        intro x hx
        cases hs : x.side
        · have hmem : x ∈ ((h :: t).filter fun z => z.side == Side.a) ++
              (gs.flatten.filter fun z => z.side == Side.a) :=
            List.mem_append_left _ (List.mem_filter.mpr ⟨hx, by simp [hs]⟩)
          have hval := aligned_member_valid oLen aLen _ _ _ hAa ho ha x hmem
          simpa using hval
        · have hmem : x ∈ ((h :: t).filter fun z => z.side == Side.b) ++
              (gs.flatten.filter fun z => z.side == Side.b) :=
            List.mem_append_left _ (List.mem_filter.mpr ⟨hx, by simp [hs]⟩)
          have hval := aligned_member_valid oLen bLen _ _ _ hAb ho hb x hmem
          simpa using hval
      have hgrp_loc : ∀ y ∈ h :: t, h.oRange.location ≤ y.oRange.location := by
        intro y hy
        rcases List.mem_cons.mp hy with rfl | hy
        · exact le_rfl
        · exact (List.pairwise_cons.mp pw_group).1 y hy
      have hcc := copyCommon_spec h.oRange.location oOff aOff bOff t1
      by_cases hempty : t.isEmpty
      · -- one-hunk group
        have htnil : t = [] := by
          cases t with
          | nil => rfl
          | cons u v => simp at hempty
        subst htnil
        have hspan : groupSpanEnd h [] = upperBound h.oRange := rfl
        rw [hspan] at t2 t3 t4 hrest_bound
        simp only [processGroups, groupSpanEnd, List.foldl_nil, List.isEmpty_nil, if_true] at hr
        have haoff : (copyCommon h.oRange.location oOff aOff bOff).2.2.1 +
            (upperBound h.oRange - (copyCommon h.oRange.location oOff aOff bOff).2.1) =
            aOff + (upperBound h.oRange - oOff) := by
          simp only [copyCommon]
          split
          · dsimp only
            ring
          · dsimp only
        have hboff : (copyCommon h.oRange.location oOff aOff bOff).2.2.2 +
            (upperBound h.oRange - (copyCommon h.oRange.location oOff aOff bOff).2.1) =
            bOff + (upperBound h.oRange - oOff) := by
          simp only [copyCommon]
          split
          · dsimp only
            ring
          · dsimp only
        rw [haoff, hboff] at hr
        rw [List.mem_append, List.mem_append] at hr
        rcases hr with (hr | hr) | hr
        · exact hcc.2.2.2 r hr
        · split at hr
          next hpos =>
            split at hr <;> simp only [List.mem_singleton] at hr <;> subst hr <;>
              simp only [RangesNonneg] <;> omega
          next => simp at hr
        · -- recursion after a one-sided group
          cases hs : h.side
          · -- side a edited the group
            rw [if_pos hs, if_neg (by simp [hs])] at hr
            have hfa : ((h :: []).filter fun x => x.side == Side.a) = [h] := by
              simp [List.filter_cons, hs]
            have hfb : ((h :: []).filter fun x => x.side == Side.b) = [] := by
              simp [List.filter_cons, hs]
            rw [hfa, List.singleton_append] at hAa
            rw [hfb, List.nil_append] at hAb
            rcases hAa with ⟨q1, q2, q3, q4, q5, q6, hAa2⟩
            refine ih _ _ _ t4 pw_rest (fun g hg => hwf g (List.mem_cons_of_mem _ hg))
              ?_ ?_ ?_ ?_ ?_ r hr
            · exact hAa2
            · refine aligned_realign _ _ _ _ _ _ _ hAb (by omega) ?_
              intro y hy
              exact hrest_bound y (List.mem_of_mem_filter hy)
            · simp only [upperBound]
              omega
            · simp only [upperBound]
              omega
            · simp only [upperBound]
              omega
          · -- side b edited the group
            rw [if_neg (by simp [hs]), if_pos hs] at hr
            have hfa : ((h :: []).filter fun x => x.side == Side.a) = [] := by
              simp [List.filter_cons, hs]
            have hfb : ((h :: []).filter fun x => x.side == Side.b) = [h] := by
              simp [List.filter_cons, hs]
            rw [hfa, List.nil_append] at hAa
            rw [hfb, List.singleton_append] at hAb
            rcases hAb with ⟨q1, q2, q3, q4, q5, q6, hAb2⟩
            refine ih _ _ _ t4 pw_rest (fun g hg => hwf g (List.mem_cons_of_mem _ hg))
              ?_ ?_ ?_ ?_ ?_ r hr
            · refine aligned_realign _ _ _ _ _ _ _ hAa (by omega) ?_
              intro y hy
              exact hrest_bound y (List.mem_of_mem_filter hy)
            · exact hAb2
            · simp only [upperBound]
              omega
            · simp only [upperBound]
              omega
            · simp only [upperBound]
              omega
      · -- proper conflict group
        have hemptF : t.isEmpty = false := by simpa using hempty
        have hboth : groupHasBoth (h :: t) = true := by
          refine (hwf (h :: t) (by simp)).2 ?_
          cases t with
          | nil => simp at hemptF
          | cons u v => simp
        rw [groupHasBoth, Bool.and_eq_true] at hboth
        simp only [processGroups, hemptF, Bool.false_eq_true, if_false,
          regionsStep_foldl_split, foldl_region_char] at hr
        set gaL := (h :: t).filter (fun x => x.side == Side.a) with hgaLdef
        set gbL := (h :: t).filter (fun x => x.side == Side.b) with hgbLdef
        have hgaNe : gaL ≠ [] := filter_ne_nil_of_any (h :: t) Side.a hboth.1
        have hgbNe : gbL ≠ [] := filter_ne_nil_of_any (h :: t) Side.b hboth.2
        obtain ⟨hgA, tgA, hgaEq⟩ := List.exists_cons_of_ne_nil hgaNe
        obtain ⟨hgB, tgB, hgbEq⟩ := List.exists_cons_of_ne_nil hgbNe
        have chainA : AlignedHunks oLen aLen oOff aOff gaL :=
          aligned_append_left oLen aLen gaL _ oOff aOff hAa
        have chainB : AlignedHunks oLen bLen oOff bOff gbL :=
          aligned_append_left oLen bLen gbL _ oOff bOff hAb
        have chainArest := aligned_append_right oLen aLen gaL _ oOff aOff hAa
        have chainBrest := aligned_append_right oLen bLen gbL _ oOff bOff hAb
        have memA : hgA ∈ gaL := by rw [hgaEq]; simp
        have memB : hgB ∈ gbL := by rw [hgbEq]; simp
        have chainAcons := hgaEq ▸ chainA
        have chainBcons := hgbEq ▸ chainB
        rcases chainAcons with ⟨qa1, qa2, qa3, qa4, qa5, qa6, -⟩
        rcases chainBcons with ⟨qb1, qb2, qb3, qb4, qb5, qb6, -⟩
        have hLa2 : ∀ y ∈ gaL, hgA.oRange.location ≤ y.oRange.location ∧
            hgA.sideRange.location ≤ y.sideRange.location := by
          rw [hgaEq]
          exact aligned_head_least oLen aLen tgA hgA oOff aOff (hgaEq ▸ chainA)
        have hLb2 : ∀ y ∈ gbL, hgB.oRange.location ≤ y.oRange.location ∧
            hgB.sideRange.location ≤ y.sideRange.location := by
          rw [hgbEq]
          exact aligned_head_least oLen bLen tgB hgB oOff bOff (hgbEq ▸ chainB)
        have hGa := aligned_chainEnd_greatest oLen aLen gaL oOff aOff chainA
        have hGb := aligned_chainEnd_greatest oLen bLen gbL oOff bOff chainB
        obtain ⟨wA, hwA, hwAO, hwAX⟩ := chainEnd_mem gaL oOff aOff hgaNe
        obtain ⟨wB, hwB, hwBO, hwBX⟩ := chainEnd_mem gbL oOff bOff hgbNe
        have fa1 : upperBound hgA.sideRange ≤ chainEndX aOff gaL := (hGa hgA memA).2
        have fb1 : upperBound hgB.sideRange ≤ chainEndX bOff gbL := (hGb hgB memB).2
        have fa2 : chainEndO oOff gaL ≤ groupSpanEnd h t := by
          rw [← hwAO]
          exact group_upper_le_span h t wA (List.mem_of_mem_filter hwA)
        have fb2 : chainEndO oOff gbL ≤ groupSpanEnd h t := by
          rw [← hwBO]
          exact group_upper_le_span h t wB (List.mem_of_mem_filter hwB)
        have fa3 : h.oRange.location ≤ hgA.oRange.location :=
          hgrp_loc hgA (List.mem_of_mem_filter memA)
        have fb3 : h.oRange.location ≤ hgB.oRange.location :=
          hgrp_loc hgB (List.mem_of_mem_filter memB)
        have eA0 : (gaL.map fun x => x.sideRange.location).foldl (fun acc v => min v acc) aLen
            = hgA.sideRange.location := by
          refine isLeast_unique _ _ _ (foldl_min_isLeast _ _ ?_)
            ⟨List.mem_map_of_mem _ memA, ?_⟩
          · refine ⟨hgA.sideRange.location, List.mem_map_of_mem _ memA, ?_⟩
            simp only [upperBound] at qa6
            omega
          · intro v hv
            rcases List.mem_map.mp hv with ⟨y, hy, rfl⟩
            exact (hLa2 y hy).2
        have eA1 : (gaL.map fun x => upperBound x.sideRange).foldl (fun acc v => max v acc) (-1)
            = chainEndX aOff gaL := by
          refine isGreatest_unique _ _ _ (foldl_max_isGreatest _ _ ?_)
            ⟨by rw [← hwAX]; exact List.mem_map_of_mem _ hwA, ?_⟩
          · refine ⟨upperBound hgA.sideRange, List.mem_map_of_mem _ memA, ?_⟩
            simp only [upperBound]
            omega
          · intro v hv
            rcases List.mem_map.mp hv with ⟨y, hy, rfl⟩
            exact (hGa y hy).2
        have eA2 : (gaL.map fun x => x.oRange.location).foldl (fun acc v => min v acc) oLen
            = hgA.oRange.location := by
          refine isLeast_unique _ _ _ (foldl_min_isLeast _ _ ?_)
            ⟨List.mem_map_of_mem _ memA, ?_⟩
          · refine ⟨hgA.oRange.location, List.mem_map_of_mem _ memA, ?_⟩
            simp only [upperBound] at qa5
            omega
          · intro v hv
            rcases List.mem_map.mp hv with ⟨y, hy, rfl⟩
            exact (hLa2 y hy).1
        have eA3 : (gaL.map fun x => upperBound x.oRange).foldl (fun acc v => max v acc) (-1)
            = chainEndO oOff gaL := by
          refine isGreatest_unique _ _ _ (foldl_max_isGreatest _ _ ?_)
            ⟨by rw [← hwAO]; exact List.mem_map_of_mem _ hwA, ?_⟩
          · refine ⟨upperBound hgA.oRange, List.mem_map_of_mem _ memA, ?_⟩
            simp only [upperBound]
            omega
          · intro v hv
            rcases List.mem_map.mp hv with ⟨y, hy, rfl⟩
            exact (hGa y hy).1
        have eB0 : (gbL.map fun x => x.sideRange.location).foldl (fun acc v => min v acc) bLen
            = hgB.sideRange.location := by
          refine isLeast_unique _ _ _ (foldl_min_isLeast _ _ ?_)
            ⟨List.mem_map_of_mem _ memB, ?_⟩
          · refine ⟨hgB.sideRange.location, List.mem_map_of_mem _ memB, ?_⟩
            simp only [upperBound] at qb6
            omega
          · intro v hv
            rcases List.mem_map.mp hv with ⟨y, hy, rfl⟩
            exact (hLb2 y hy).2
        have eB1 : (gbL.map fun x => upperBound x.sideRange).foldl (fun acc v => max v acc) (-1)
            = chainEndX bOff gbL := by
          refine isGreatest_unique _ _ _ (foldl_max_isGreatest _ _ ?_)
            ⟨by rw [← hwBX]; exact List.mem_map_of_mem _ hwB, ?_⟩
          · refine ⟨upperBound hgB.sideRange, List.mem_map_of_mem _ memB, ?_⟩
            simp only [upperBound]
            omega
          · intro v hv
            rcases List.mem_map.mp hv with ⟨y, hy, rfl⟩
            exact (hGb y hy).2
        have eB2 : (gbL.map fun x => x.oRange.location).foldl (fun acc v => min v acc) oLen
            = hgB.oRange.location := by
          refine isLeast_unique _ _ _ (foldl_min_isLeast _ _ ?_)
            ⟨List.mem_map_of_mem _ memB, ?_⟩
          · refine ⟨hgB.oRange.location, List.mem_map_of_mem _ memB, ?_⟩
            simp only [upperBound] at qb5
            omega
          · intro v hv
            rcases List.mem_map.mp hv with ⟨y, hy, rfl⟩
            exact (hLb2 y hy).1
        have eB3 : (gbL.map fun x => upperBound x.oRange).foldl (fun acc v => max v acc) (-1)
            = chainEndO oOff gbL := by
          refine isGreatest_unique _ _ _ (foldl_max_isGreatest _ _ ?_)
            ⟨by rw [← hwBO]; exact List.mem_map_of_mem _ hwB, ?_⟩
          · refine ⟨upperBound hgB.oRange, List.mem_map_of_mem _ memB, ?_⟩
            simp only [upperBound]
            omega
          · intro v hv
            rcases List.mem_map.mp hv with ⟨y, hy, rfl⟩
            exact (hGb y hy).1
        rw [eA0, eA1, eA2, eA3, eB0, eB1, eB2, eB3] at hr
        rw [List.mem_append, List.mem_append] at hr
        rcases hr with (hr | hr) | hr
        · exact hcc.2.2.2 r hr
        · simp only [List.mem_singleton] at hr
          subst hr
          simp only [RangesNonneg, makeRange]
          simp only [upperBound] at fa1 fb1
          omega
        · refine ih _ _ _ t4 pw_rest (fun g hg => hwf g (List.mem_cons_of_mem _ hg))
            ?_ ?_ ?_ ?_ ?_ r hr
          · refine aligned_realign _ _ _ _ _ _ _ chainArest (by omega) ?_
            intro y hy
            exact hrest_bound y (List.mem_of_mem_filter hy)
          · refine aligned_realign _ _ _ _ _ _ _ chainBrest (by omega) ?_
            intro y hy
            exact hrest_bound y (List.mem_of_mem_filter hy)
          · omega
          · simp only [upperBound] at fa1
            omega
          · simp only [upperBound] at fb1
            omega

theorem pairwise_short (R : Hunk → Hunk → Prop) (l : List Hunk) (hl : l.length ≤ 1) :
    l.Pairwise R := by
  cases l with
  | nil => exact List.Pairwise.nil
  | cons x t =>
    cases t with
    | nil => exact List.pairwise_singleton _ _
    | cons y u =>
      simp only [List.length_cons] at hl
      omega

/-- The modelled diff primitive emits at most one hunk. -/
theorem diffIndicesArray_length_le_one (eq : α → α → Bool) (a b : List α) :
    (diffIndicesArray eq a b).length ≤ 1 := by
  simp only [diffIndicesArray]
  split
  · simp
  · rw [List.length_map, diff_core]
    split <;> simp

/-- A diff satisfying the alignment contract yields, for either side tag,
a hunk list aligned with the merge sweep's offset invariant. -/
theorem diffAligned_alignedHunks (eq : α → α → Bool) (a x : List α) (s : Side) :
    ∀ (m : List DiffIndicesResult) (ai bi : Nat),
    DiffAligned eq a x ai bi m →
    AlignedHunks (a.length : Int) (x.length : Int) (ai : Int) (bi : Int) (hunksOf s m) := by
  intro m
  induction m with
  | nil => intro ai bi _; trivial
  | cons h rest ih =>
    intro ai bi hal
    rcases hal with ⟨g, la, lb, e1, e2, e3, e4, hpos, heq, hrest⟩
    have hle := diffAligned_pos_le eq a x rest _ _ hrest
    have ihrest := ih _ _ hrest
    have hcons : hunksOf s (h :: rest) = ⟨s, h.a, h.b⟩ :: hunksOf s rest := rfl
    rw [hcons]
    refine ⟨?_, ?_, ?_, ?_, ?_, ?_, ?_⟩
    · dsimp only
      omega
    · dsimp only
      omega
    · dsimp only
      omega
    · dsimp only
      omega
    · dsimp only [upperBound]
      omega
    · dsimp only [upperBound]
      omega
    · have hoeq : upperBound (Hunk.mk s h.a h.b).oRange = ((ai + g + la : Nat) : Int) := by
        dsimp only [upperBound]
        omega
      have hxeq : upperBound (Hunk.mk s h.a h.b).sideRange = ((bi + g + lb : Nat) : Int) := by
        dsimp only [upperBound]
        omega
      rw [hoeq, hxeq]
      exact ihrest

/-- **C7.** Every `Range` in the output of `diff3MergeIndices` has
non-negative location and length: the skew-corrected `aRange`, `oRange`
and `bRange` of every conflict record are non-negative, and every
`okA`/`okB` record has length at least 1. -/
theorem c7_ranges_nonneg [DecidableEq α] (o a b : List α) :
    ∀ r ∈ diff3MergeIndices o a b, RangesNonneg r := by
  have hm1 : (diffIndices o a).length ≤ 1 := diffIndicesArray_length_le_one _ _ _
  have hm2 : (diffIndices o b).length ≤ 1 := diffIndicesArray_length_le_one _ _ _
  have hlen1 : (hunksOf .a (diffIndices o a)).length ≤ 1 := by
    rw [hunksOf, List.length_map]
    exact hm1
  have hlen2 : (hunksOf .b (diffIndices o b)).length ≤ 1 := by
    rw [hunksOf, List.length_map]
    exact hm2
  have hfa := sortedHunks_filter_a (diffIndices o a) (diffIndices o b)
    (pairwise_short _ _ hlen1)
  have hfb := sortedHunks_filter_b (diffIndices o a) (diffIndices o b)
    (pairwise_short _ _ hlen2)
  have hsep := sortedHunks_side_separated (diffIndices o a) (diffIndices o b)
    (by rw [hfa]; exact pairwise_short _ _ hlen1)
    (by rw [hfb]; exact pairwise_short _ _ hlen2)
  have hwf := sweepGroups_wf (sortedHunks (diffIndices o a) (diffIndices o b)).length _
    le_rfl hsep
  have htile := sweepGroups_tileable (o.length : Int)
    (sortedHunks (diffIndices o a) (diffIndices o b)).length _ le_rfl 0
    (sortedHunks_sorted _ _) (sortedHunks_valid o a b)
    (fun h hh => (sortedHunks_valid o a b h hh).1) (by positivity)
  have hAa : AlignedHunks (o.length : Int) (a.length : Int) 0 0
      (((sweepGroups (sortedHunks (diffIndices o a) (diffIndices o b))).flatten).filter
        fun x => x.side == Side.a) := by
    rw [sweepGroups_flatten, hfa]
    exact diffAligned_alignedHunks (fun u v => decide (u = v)) o a Side.a _ 0 0
      (diffIndicesArray_aligned (fun u v => decide (u = v)) o a)
  have hAb : AlignedHunks (o.length : Int) (b.length : Int) 0 0
      (((sweepGroups (sortedHunks (diffIndices o a) (diffIndices o b))).flatten).filter
        fun x => x.side == Side.b) := by
    rw [sweepGroups_flatten, hfb]
    exact diffAligned_alignedHunks (fun u v => decide (u = v)) o b Side.b _ 0 0
      (diffIndicesArray_aligned (fun u v => decide (u = v)) o b)
  intro r hr
  rw [diff3MergeIndices, mergeIndicesFromDiffs] at hr
  refine processGroups_nonneg (o.length : Int) (a.length : Int) (b.length : Int)
    _ 0 0 0 htile ?_ hwf hAa hAb le_rfl le_rfl le_rfl r hr
  rw [sweepGroups_flatten]
  exact sortedHunks_sorted _ _

/-- Witness for C7: `diff3MergeIndices [1,2,3] [2,3] [1,2,4,3]` emits the
one-sided insertion record `okB 1 _ _ 2`, whose ranges the theorem shows
non-negative. -/
theorem c7_ranges_nonneg_witness :
    Index.okB 1 none none 2 ∈ diff3MergeIndices [1, 2, 3] [2, 3] [1, 2, 4, 3] ∧
    RangesNonneg (Index.okB 1 none none 2) :=
  ⟨by decide, c7_ranges_nonneg [1, 2, 3] [2, 3] [1, 2, 4, 3] _ (by decide)⟩

end JsonDiff3
